import Mathlib

/-!
Verification development for the markdown-vault indexing/retrieval engine
(`src/ai/vault/indexer.py` and `src/ai/vault/retriever.py`).

The Python code is shallowly embedded: the filesystem is a list of markdown
files (path, content, mtime); the sqlite store is a `Store` value (a `files`
table, a `chunks` table and the AUTOINCREMENT counter); the embedding
provider is a function returning `Except`; Python exceptions are `Except`
errors.  Python strings are modelled through their character lists, and all
string helpers (`strip`, `split`, `splitlines`, ...) are written structurally
so they evaluate by kernel reduction.
-/

deriving instance DecidableEq for Except

namespace Vault

/-- Python exceptions raised by the engine.  `valueError` covers every
`ValueError` (invalid vault name, invalid mode, `range()` step zero,
`zip(strict=True)` mismatch), mirroring the source, which raises the same
exception class for all of them. -/
inductive PyError where
  | valueError (msg : String)
  | fileNotFound (msg : String)
  | providerFailure
  | indexError
  | zeroDivisionError
deriving DecidableEq, Repr

/-! ### Python string primitives, over character lists -/

/-- Python `str.lstrip()` on a character list: drop leading whitespace. -/
def lstripWs (l : List Char) : List Char := l.dropWhile Char.isWhitespace

/-- Python `str.strip()` on a character list: drop whitespace at both ends. -/
def pyStripChars (l : List Char) : List Char :=
  ((l.dropWhile Char.isWhitespace).reverse.dropWhile Char.isWhitespace).reverse

/-- Python `str.strip()` producing a string. -/
def pyStrip (s : String) : String := String.mk (pyStripChars s.data)

/-- Split a character list at newline characters; like `"".join` inverse,
always returns at least one (possibly empty) piece. -/
def splitOnNl : List Char → List (List Char)
  | [] => [[]]
  | c :: rest =>
    let r := splitOnNl rest
    if c = '\n' then [] :: r
    else
      match r with
      | [] => [[c]]
      | h :: t => (c :: h) :: t

/-- Python `str.splitlines()`: split at newlines, with no trailing empty
piece for a trailing newline.  (The source only ever feeds `\n`-separated
markdown text, so other Python line boundaries are not modelled.) -/
def pySplitlines (s : String) : List String :=
  let parts := splitOnNl s.data
  let parts := if parts.getLast? = some [] then parts.dropLast else parts
  parts.map String.mk

/-- One step of whitespace-splitting, consumed by `foldr`:
state is (current word, words after it). -/
def wordsStep (c : Char) (acc : List Char × List (List Char)) :
    List Char × List (List Char) :=
  if c.isWhitespace then
    ([], if acc.1 = [] then acc.2 else acc.1 :: acc.2)
  else (c :: acc.1, acc.2)

/-- Python `str.split()` (no argument): split on whitespace runs, discarding
empty pieces. -/
def pySplitWs (s : String) : List String :=
  let p := s.data.foldr wordsStep ([], [])
  (if p.1 = [] then p.2 else p.1 :: p.2).map String.mk

/-- Python `range(start, stop, step)` for a positive step, with explicit fuel
so that the definition is structural (the callers pass `fuel = stop`,
which always suffices since each iteration advances by at least 1). -/
def pyRangeAux (fuel : Nat) (start stop step : Nat) : List Nat :=
  match fuel with
  | 0 => []
  | fuel + 1 =>
    if start < stop then start :: pyRangeAux fuel (start + step) stop step
    else []

/-- Python `range(0, stop, step)` for `step ≥ 1` (the only shape the source
uses; `range` with step `0` raises and is handled at the call site). -/
def pyRange (stop step : Nat) : List Nat := pyRangeAux stop 0 stop step

/-! ### Data model -/

/-- A chunk produced by splitting, before embedding (`VaultChunk` in
`models.py`). -/
structure VaultChunk where
  text : String
  file_path : String
  heading_path : String
deriving DecidableEq, Repr

/-- A row of the `files` table.  `last_indexed_at` (a wall-clock timestamp)
is not modelled: no claim observes it. -/
structure FileRow where
  file_path : String
  content_hash : String
  mtime : Int
deriving DecidableEq, Repr

/-- A row of the `chunks` table.  The serialized `embedding_json` column is
modelled by the vector value itself (of an arbitrary type `V`): the indexer
never inspects it. -/
structure ChunkRow (V : Type) where
  chunk_id : Nat
  file_path : String
  heading_path : String
  text : String
  embedding : V
deriving DecidableEq, Repr

/-- The persisted sqlite store: both tables plus the AUTOINCREMENT counter
for `chunk_id` (sqlite keeps it in `sqlite_sequence`, which is rolled back
with the transaction, so keeping it inside `Store` is faithful). -/
structure Store (V : Type) where
  files : List FileRow
  chunks : List (ChunkRow V)
  nextChunkId : Nat
deriving DecidableEq, Repr

/-- A freshly created index database: empty tables. -/
def emptyStore (V : Type) : Store V := ⟨[], [], 0⟩

/-- A markdown file on disk: its path string, raw content and mtime. -/
structure DiskFile where
  path : String
  content : String
  mtime : Int
deriving DecidableEq, Repr

/-! ### Section splitting (`_split_sections`) -/

/-- The heading-marker test `line.lstrip().startswith("#")`. -/
def isHeadingMarker (line : String) : Bool :=
  match lstripWs line.data with
  | [] => false
  | c :: _ => c = '#'

/-- The heading-level computation
`len(line) - len(line.lstrip("#"))`: the number of leading `#`
characters of the *unstripped* line. -/
def headingLevel (line : String) : Nat :=
  line.data.length - (line.data.dropWhile (fun c => c = '#')).length

/-- The heading title `line.lstrip("#").strip()`. -/
def headingTitle (line : String) : String :=
  String.mk (pyStripChars (line.data.dropWhile (fun c => c = '#')))

/-- State of the `_split_sections` scan: emitted sections, the heading
stack, and the current line buffer. -/
structure SplitState where
  sections : List (String × String)
  stack : List String
  buffer : List String
deriving Repr

/-- The inner `flush()`: if the buffer is non-empty, emit it as a section
tagged with the current heading path. -/
def flushSections (st : SplitState) : SplitState :=
  if st.buffer = [] then st
  else
    { st with
      sections :=
        st.sections ++ [(String.intercalate " > " st.stack, String.intercalate "\n" st.buffer)]
      buffer := [] }

/-- One line of the `_split_sections` loop. -/
def splitStep (st : SplitState) (line : String) : SplitState :=
  if isHeadingMarker line then
    let st := flushSections st
    let level := headingLevel line
    let title := headingTitle line
    if level = 0 then st
    else
      { st with
        stack := st.stack.take (level - 1) ++ [title]
        buffer := st.buffer ++ [line] }
  else { st with buffer := st.buffer ++ [line] }

/-- `_split_sections`: scan the lines, flushing buffers at heading markers;
returns (heading-path, section-text) pairs. -/
def split_sections (text : String) : List (String × String) :=
  let final := (pySplitlines text).foldl splitStep ⟨[], [], []⟩
  (flushSections final).sections

/-! ### Chunking (`_chunk_text`) -/

/-- `_chunk_text`: split into whitespace words, then emit windows of
`max_words` words advancing by `max(max_words - overlap_words, 1)`. -/
def chunk_text (text : String) (max_words overlap_words : Nat) : List String :=
  let words := pySplitWs text
  if words = [] then []
  else
    let step := max (max_words - overlap_words) 1
    (pyRange words.length step).map fun i =>
      String.intercalate " " ((words.drop i).take max_words)

/-- `_collect_file_chunks`: chunk every section of the file, keeping only
chunks with non-blank text. -/
def collect_file_chunks (content : String) (path : String)
    (max_words overlap_words : Nat) : List VaultChunk :=
  (split_sections content).foldr
    (fun sec acc =>
      ((chunk_text sec.2 max_words overlap_words).filter
          (fun ct => pyStrip ct ≠ "")).map
        (fun ct => ⟨ct, path, sec.1⟩) ++ acc)
    []

/-! ### Batching (`_batched`) -/

/-- `_batched`: contiguous groups via `range(0, len(items), batch_size)`.
Python `range` raises `ValueError` for step 0 and yields an *empty* range
for a negative step (since `0 < len` with a negative step is empty). -/
def batched {α : Type} (items : List α) (batch_size : Int) :
    Except PyError (List (List α)) :=
  if batch_size = 0 then .error (.valueError "range() arg 3 must not be zero")
  else if batch_size < 0 then .ok []
  else
    .ok ((pyRange items.length batch_size.toNat).map fun i =>
      (items.drop i).take batch_size.toNat)

/-! ### The indexer (`index_vault`) -/

/-- Lexicographic comparison of character lists, for path sorting. -/
def charsLt : List Char → List Char → Bool
  | [], [] => false
  | [], _ :: _ => true
  | _ :: _, [] => false
  | a :: as, b :: bs => if a < b then true else if b < a then false else charsLt as bs

/-- Stable insertion of a file into a path-ascending list. -/
def insertByPath (x : DiskFile) : List DiskFile → List DiskFile
  | [] => [x]
  | y :: ys =>
    if charsLt y.path.data x.path.data then y :: insertByPath x ys
    else x :: y :: ys

/-- `sorted(vault_path.rglob("*.md"))`: the deterministic scan order.
(Path objects compare essentially lexicographically; no claim depends on
the exact tie-break, only on which files occur.) -/
def sortByPath : List DiskFile → List DiskFile
  | [] => []
  | x :: xs => insertByPath x (sortByPath xs)

/-- `existing_hashes.get(file_path)`: dictionary lookup in the snapshot of
the `files` table (`file_path` is the PRIMARY KEY, so `find?` matches the
dict built from the SELECT). -/
def lookupHash (existing : List FileRow) (p : String) : Option String :=
  (existing.find? (fun r => r.file_path = p)).map (fun r => r.content_hash)

/-- The `cleanup_deleted` block: delete the `files` and `chunks` rows of
every path that was a key of `existing_hashes` but is no longer on disk. -/
def cleanupStore {V : Type} (s : Store V) (existingPaths livePaths : List String) :
    Store V :=
  let missing := existingPaths.filter (fun p => decide (p ∉ livePaths))
  { s with
    files := s.files.filter (fun r => decide (r.file_path ∉ missing))
    chunks := s.chunks.filter (fun c => decide (c.file_path ∉ missing)) }

/-- The `INSERT ... ON CONFLICT(file_path) DO UPDATE` upsert of a file
record (updates hash and mtime in place, else appends a new row). -/
def upsertFile {V : Type} (s : Store V) (p h : String) (m : Int) : Store V :=
  if s.files.any (fun r => r.file_path = p) then
    { s with
      files := s.files.map fun r =>
        if r.file_path = p then { r with content_hash := h, mtime := m } else r }
  else { s with files := s.files ++ [⟨p, h, m⟩] }

/-- One iteration of the per-file loop of `index_vault`.  The accumulator
carries the connection state and the `chunks` list collected so far;
`existing` is the `existing_hashes` snapshot taken before the loop. -/
def processFile {V : Type} (hashF : String → String) (mode : String)
    (existing : List FileRow) (max_words overlap_words : Nat)
    (acc : Store V × List VaultChunk) (f : DiskFile) :
    Store V × List VaultChunk :=
  let s := acc.1
  let collected := acc.2
  let file_path := f.path
  let content_hash := hashF f.content
  let stored := lookupHash existing file_path
  if mode = "update-new" ∧ stored.isSome then acc
  else if mode = "update-all" ∧ stored = some content_hash then acc
  else
    let s :=
      if mode = "update-all" ∧ stored.isSome then
        { s with chunks := s.chunks.filter (fun c => decide (c.file_path ≠ file_path)) }
      else s
    let collected :=
      collected ++ collect_file_chunks f.content file_path max_words overlap_words
    (upsertFile s file_path content_hash f.mtime, collected)

/-- The whole per-file loop, over the sorted scan of the vault. -/
def processFiles {V : Type} (hashF : String → String) (mode : String)
    (existing : List FileRow) (max_words overlap_words : Nat)
    (s : Store V) (fs : List DiskFile) : Store V × List VaultChunk :=
  (sortByPath fs).foldl (processFile hashF mode existing max_words overlap_words) (s, [])

/-- Append one (chunk, vector) pair as a `chunks` row, consuming the
AUTOINCREMENT counter. -/
def insertChunkRow {V : Type} (s : Store V) (cv : VaultChunk × V) : Store V :=
  { s with
    chunks := s.chunks ++ [⟨s.nextChunkId, cv.1.file_path, cv.1.heading_path, cv.1.text, cv.2⟩]
    nextChunkId := s.nextChunkId + 1 }

/-- One batch of the embedding loop: call the provider on the batch texts
and insert the paired rows.  `zip(batch, vectors, strict=True)` raises
`ValueError` on a length mismatch; the partial inserts preceding the raise
are rolled back with the failing run, so checking the length first is
observationally equal. -/
def embedBatch {V : Type} (embed : List String → Except Unit (List V))
    (s : Store V) (batch : List VaultChunk) : Except PyError (Store V) :=
  match embed (batch.map (fun c => c.text)) with
  | .error _ => .error .providerFailure
  | .ok vectors =>
    if batch.length = vectors.length then
      .ok ((batch.zip vectors).foldl insertChunkRow s)
    else .error (.valueError "zip() argument lengths differ")

/-- The embedding loop over all batches: sequential, stopping at the first
raised exception, as the Python `for batch in iterator` loop does. -/
def embedAll {V : Type} (embed : List String → Except Unit (List V))
    (s : Store V) : List (List VaultChunk) → Except PyError (Store V)
  | [] => .ok s
  | b :: rest =>
    match embedBatch embed s b with
    | .error e => .error e
    | .ok s2 => embedAll embed s2 rest

/-- The store the sqlite connection opens: in `rebuild` mode the old index
file was already unlinked, so the connection creates a fresh empty store;
otherwise the existing file (or a fresh one) is opened.  The
`CREATE TABLE IF NOT EXISTS` statements run in autocommit mode, before the
implicit transaction that the first row statement opens. -/
def openedStore {V : Type} (mode : String) (store0 : Option (Store V)) : Store V :=
  (if mode = "rebuild" then none else store0).getD (emptyStore V)

/-- The row-DML phase before embedding: the `existing_hashes` snapshot, the
optional cleanup of deleted files, and the whole per-file loop. -/
def loopState {V : Type} (hashF : String → String) (fs : List DiskFile)
    (s1 : Store V) (mode : String) (max_words overlap_words : Nat)
    (cleanup_deleted : Bool) : Store V × List VaultChunk :=
  let existing := if mode = "rebuild" then [] else s1.files
  let s2 :=
    if mode ≠ "rebuild" ∧ cleanup_deleted = true then
      cleanupStore s1 (existing.map (fun r => r.file_path)) (fs.map (fun f => f.path))
    else s1
  processFiles hashF mode existing max_words overlap_words s2 fs

/-- The body of the `with sqlite3.connect(...)` block, from the
`existing_hashes` snapshot to the final `len(chunks)`: everything in it is
row DML inside one implicit transaction, and a raised exception propagates
out (the `match` arms model exception propagation). -/
def indexBody {V : Type} (hashF : String → String) (fs : List DiskFile)
    (s1 : Store V) (embed : List String → Except Unit (List V)) (mode : String)
    (max_words overlap_words : Nat) (batch_size : Int) (cleanup_deleted : Bool) :
    Except PyError (Store V × Nat) :=
  let pr := loopState hashF fs s1 mode max_words overlap_words cleanup_deleted
  match batched pr.2 batch_size with
  | .error e => .error e
  | .ok batches =>
    match embedAll embed pr.1 batches with
    | .error e => .error e
    | .ok s4 => .ok (s4, pr.2.length)

/-- `index_vault`.  The filesystem argument is `none` when the vault path
does not exist, else the list of markdown files under it; `store0` is
`none` when the index file does not exist.  `hashF` abstracts the sha256
hex digest of `_hash_file` (the code only ever compares digests).  The
result is the persisted store after the call together with the returned
count or the raised exception; on an exception inside the connection the
context manager rolls the transaction back, leaving the store that the
connection had opened. -/
def index_vault {V : Type} (hashF : String → String) (vault_name : String)
    (disk : Option (List DiskFile)) (store0 : Option (Store V))
    (embed : List String → Except Unit (List V)) (mode : String)
    (max_words overlap_words : Nat) (batch_size : Int) (cleanup_deleted : Bool) :
    Option (Store V) × Except PyError Nat :=
  if pyStrip vault_name = "" then
    (store0, .error (.valueError "vault_name must be non-empty"))
  else
    match disk with
    | none => (store0, .error (.fileNotFound "Vault path not found"))
    | some fs =>
      if mode = "rebuild" ∨ mode = "update-all" ∨ mode = "update-new" then
        let s1 : Store V := openedStore mode store0
        match indexBody hashF fs s1 embed mode max_words overlap_words
            batch_size cleanup_deleted with
        | .ok (s2, n) => (some s2, .ok n)
        | .error e => (some s1, .error e)
      else (store0, .error (.valueError "mode must be rebuild, update-all, or update-new"))

/-! ### The retriever (`query_vault_index`, `_cosine_similarity`) -/

/-- `VaultSearchResult` from `models.py`.  Scores are Python floats,
modelled as real numbers. -/
structure VaultSearchResult where
  vault : String
  score : ℝ
  text : String
  file_path : String
  heading_path : String

/-- Python float division: raises `ZeroDivisionError` on a zero divisor. -/
noncomputable def pyDiv (x y : ℝ) : Except PyError ℝ :=
  if y = 0 then .error .zeroDivisionError else .ok (x / y)

/-- `_cosine_similarity`: empty-vector guard, dot product over `zip`
(shortest common length), denominator from the two full Euclidean norms,
zero-denominator guard, then Python division. -/
noncomputable def cosine_similarity (a b : List ℝ) : Except PyError ℝ :=
  if a = [] ∨ b = [] then .ok 0
  else
    let dot := (List.zipWith (fun x y => x * y) a b).sum
    let denom :=
      Real.sqrt ((a.map fun x => x * x).sum) * Real.sqrt ((b.map fun y => y * y).sum)
    if denom = 0 then .ok 0
    else pyDiv dot denom

/-- The value `_cosine_similarity` always returns (helper for stating that
it never raises). -/
noncomputable def cosValue (a b : List ℝ) : ℝ :=
  if a = [] ∨ b = [] then 0
  else
    let dot := (List.zipWith (fun x y => x * y) a b).sum
    let denom :=
      Real.sqrt ((a.map fun x => x * x).sum) * Real.sqrt ((b.map fun y => y * y).sum)
    if denom = 0 then 0 else dot / denom

/-- Stable insertion for Python `list.sort(key=score, reverse=True)`:
an element is placed before the first element whose score is `≤` its own,
so equal scores keep their original relative order. -/
noncomputable def insertDesc (x : VaultSearchResult) :
    List VaultSearchResult → List VaultSearchResult
  | [] => [x]
  | y :: ys => if x.score < y.score then y :: insertDesc x ys else x :: y :: ys

/-- Python `list.sort(key=lambda r: r.score, reverse=True)`: a stable
descending sort by score (Timsort is stable; any stable sort computes the
same list, and insertion sort is stable by construction). -/
noncomputable def sortDesc : List VaultSearchResult → List VaultSearchResult
  | [] => []
  | x :: xs => insertDesc x (sortDesc xs)

/-- The scoring pass of the retriever: one result per chunk row, in the
scan order of the store. -/
noncomputable def scoredResults (vault_name : String) (qv : List ℝ)
    (rows : List (ChunkRow (List ℝ))) : List VaultSearchResult :=
  rows.map fun r =>
    { vault := vault_name, score := cosValue qv r.embedding, text := r.text,
      file_path := r.file_path, heading_path := r.heading_path }

/-- The scoring loop of the retriever (`for ... in rows: ... results.append`),
with exception propagation: one result per chunk row, in scan order. -/
noncomputable def scoreRows (vault_name : String) (query_vec : List ℝ) :
    List (ChunkRow (List ℝ)) → Except PyError (List VaultSearchResult)
  | [] => .ok []
  | r :: rs =>
    match cosine_similarity query_vec r.embedding with
    | .error e => .error e
    | .ok score =>
      match scoreRows vault_name query_vec rs with
      | .error e => .error e
      | .ok results =>
        .ok ({ vault := vault_name, score := score, text := r.text,
               file_path := r.file_path, heading_path := r.heading_path } :: results)

/-- `query_vault_index`: validate, embed the query (`[0]` on the returned
list raises `IndexError` when it is empty), score every chunk row, sort
descending by score with the stable sort, return the first `top_k`.  The
index argument is `none` when the index file does not exist; `rows` is the
`SELECT` scan in insertion (`chunk_id`) order. -/
noncomputable def query_vault_index (vault_name : String)
    (index : Option (List (ChunkRow (List ℝ)))) (query : String)
    (embed : List String → Except Unit (List (List ℝ))) (top_k : Nat) :
    Except PyError (List VaultSearchResult) :=
  if pyStrip query = "" then .error (.valueError "query must be non-empty")
  else
    match index with
    | none => .error (.fileNotFound "Index not found")
    | some rows =>
      match embed [query] with
      | .error _ => .error .providerFailure
      | .ok vecs =>
        match vecs with
        | [] => .error .indexError
        | query_vec :: _ =>
          match scoreRows vault_name query_vec rows with
          | .error e => .error e
          | .ok results => .ok ((sortDesc results).take top_k)

/-! ### Index-tagged copies of the sort, for stating stability -/

/-- Tag each element with its position. -/
def withIdx {α : Type} : Nat → List α → List (Nat × α)
  | _, [] => []
  | i, x :: xs => (i, x) :: withIdx (i + 1) xs

/-- The same stable insertion, on position-tagged results. -/
noncomputable def insertDescT (x : Nat × VaultSearchResult) :
    List (Nat × VaultSearchResult) → List (Nat × VaultSearchResult)
  | [] => [x]
  | y :: ys => if x.2.score < y.2.score then y :: insertDescT x ys else x :: y :: ys

/-- The same stable sort, on position-tagged results. -/
noncomputable def sortDescT :
    List (Nat × VaultSearchResult) → List (Nat × VaultSearchResult)
  | [] => []
  | x :: xs => insertDescT x (sortDescT xs)

/-! ### Definitions following the spec's words, for refinement claims -/

/-- The Euclidean norm of a vector, as the spec describes it. -/
noncomputable def euclidNorm (a : List ℝ) : ℝ :=
  Real.sqrt ((a.map fun x => x * x).sum)

/-- Modelled from the spec: cosine similarity is the dot product divided by
the product of the two Euclidean norms, and `0.0` whenever either norm is
zero.  Used only to compare against `cosine_similarity`. -/
noncomputable def specCosineSimilarity (a b : List ℝ) : ℝ :=
  if euclidNorm a = 0 ∨ euclidNorm b = 0 then 0
  else ((List.zipWith (fun x y => x * y) a b).sum) / (euclidNorm a * euclidNorm b)

/-- Modelled from the claim about mismatched lengths: dot product over the
common length only, full-length norms, zero-guard as in the code.  Used
only to compare against `cosine_similarity`. -/
noncomputable def specCosineTruncated (a b : List ℝ) : ℝ :=
  let k := min a.length b.length
  let denom := euclidNorm a * euclidNorm b
  if denom = 0 then 0
  else ((List.zipWith (fun x y => x * y) (a.take k) (b.take k)).sum) / denom

/-! ## Lemmas about chunk counting -/

theorem pyRangeAux_length (step : Nat) (hs : 0 < step) :
    ∀ (fuel start stop : Nat), stop - start ≤ fuel →
      (pyRangeAux fuel start stop step).length = (stop - start + step - 1) / step := by
  intro fuel
  induction fuel with
  | zero =>
    intro start stop h
    have h0 : stop - start = 0 := Nat.le_zero.mp h
    simp [pyRangeAux, h0, Nat.div_eq_of_lt (show step - 1 < step by omega)]
  | succ fuel ih =>
    intro start stop h
    by_cases hlt : start < stop
    · have hrec := ih (start + step) stop (by omega)
      simp only [pyRangeAux, if_pos hlt, List.length_cons, hrec]
      have hd1 : 1 ≤ stop - start := by omega
      have hsub : stop - (start + step) = stop - start - step := by omega
      rw [hsub]
      rcases Nat.le_total step (stop - start) with hle | hge
      · have h1 : stop - start - step + step - 1 = stop - start - 1 := by omega
        have h2 : stop - start + step - 1 = stop - start - 1 + step := by omega
        rw [h1, h2, Nat.add_div_right _ hs]
      · have h1 : stop - start - step = 0 := by omega
        have h2 : stop - start + step - 1 = stop - start - 1 + step := by omega
        rw [h1, h2, Nat.add_div_right _ hs]
        have h3 : (0 + step - 1) / step = 0 := Nat.div_eq_of_lt (by omega)
        have h4 : (stop - start - 1) / step = 0 := Nat.div_eq_of_lt (by omega)
        omega
    · have h0 : stop - start = 0 := by omega
      simp [pyRangeAux, hlt, h0, Nat.div_eq_of_lt (show step - 1 < step by omega)]

theorem pyRange_length (stop step : Nat) (hs : 0 < step) :
    (pyRange stop step).length = (stop + step - 1) / step := by
  have := pyRangeAux_length step hs stop 0 stop (by omega)
  simpa [pyRange] using this

/-! ## Lemmas about the heading-level computation -/

theorem length_dropWhile_le {α : Type} (p : α → Bool) :
    ∀ l : List α, (l.dropWhile p).length ≤ l.length := by
  intro l
  induction l with
  | nil => simp
  | cons c cs ih =>
    by_cases h : p c
    · rw [List.dropWhile_cons_of_pos h]
      exact le_trans ih (by simp)
    · rw [List.dropWhile_cons_of_neg h]

/-! ## Lemmas about cosine similarity -/

theorem zipWith_take_min (f : ℝ → ℝ → ℝ) :
    ∀ (a b : List ℝ),
      List.zipWith f (a.take (min a.length b.length)) (b.take (min a.length b.length)) =
        List.zipWith f a b := by
  intro a
  induction a with
  | nil => intro b; simp
  | cons x xs ih =>
    intro b
    cases b with
    | nil => simp
    | cons y ys =>
      simp only [List.length_cons, Nat.succ_min_succ, List.take_succ_cons,
        List.zipWith_cons_cons]
      rw [ih ys]

/-! ## Observation helpers: the rows of one path -/

/-- The `files` rows of one path. -/
def filesAt {V : Type} (s : Store V) (p : String) : List FileRow :=
  s.files.filter (fun r => decide (r.file_path = p))

/-- The `chunks` rows of one path. -/
def chunksAt {V : Type} (s : Store V) (p : String) : List (ChunkRow V) :=
  s.chunks.filter (fun c => decide (c.file_path = p))

/-- The collected chunks of one path. -/
def chunksOf (l : List VaultChunk) (p : String) : List VaultChunk :=
  l.filter (fun c => decide (c.file_path = p))

/-! ## Generic filter lemmas -/

theorem filter_of_filter_imp {α : Type} (key cond : α → Bool)
    (h : ∀ a, key a = true → cond a = true) :
    ∀ l : List α, (l.filter cond).filter key = l.filter key := by
  intro l
  induction l with
  | nil => rfl
  | cons x xs ih =>
    cases hc : cond x with
    | true =>
      cases hk : key x with
      | true => simp [List.filter_cons, hc, hk, ih]
      | false => simp [List.filter_cons, hc, hk, ih]
    | false =>
      have hk : key x = false := by
        cases hk : key x with
        | true => exact absurd (h x hk) (by simp [hc])
        | false => rfl
      simp [List.filter_cons, hc, hk, ih]

theorem filter_of_filter_excl {α : Type} (key cond : α → Bool)
    (h : ∀ a, key a = true → cond a = false) :
    ∀ l : List α, (l.filter cond).filter key = [] := by
  intro l
  induction l with
  | nil => rfl
  | cons x xs ih =>
    cases hc : cond x with
    | true =>
      have hk : key x = false := by
        cases hk : key x with
        | true => exact absurd (h x hk) (by simp [hc])
        | false => rfl
      simp [List.filter_cons, hc, hk, ih]
    | false => simp [List.filter_cons, hc, ih]

theorem filter_map_key {α : Type} (g : α → α) (key : α → Bool)
    (hg : ∀ a, key (g a) = key a) :
    ∀ l : List α, (l.map g).filter key = (l.filter key).map g := by
  intro l
  induction l with
  | nil => rfl
  | cons x xs ih =>
    cases hk : key x with
    | true => simp [List.filter_cons, List.map_cons, hg, hk, ih]
    | false => simp [List.filter_cons, List.map_cons, hg, hk, ih]

theorem map_id_on {α : Type} (g : α → α) :
    ∀ l : List α, (∀ a ∈ l, g a = a) → l.map g = l := by
  intro l
  induction l with
  | nil => intro _; rfl
  | cons x xs ih =>
    intro h
    simp only [List.map_cons, h x (List.mem_cons_self x xs),
      ih (fun a ha => h a (List.mem_cons_of_mem x ha))]

theorem map_const_on {α : Type} (g : α → α) (b : α) :
    ∀ l : List α, (∀ a ∈ l, g a = b) → l.map g = l.map (fun _ => b) := by
  intro l
  induction l with
  | nil => intro _; rfl
  | cons x xs ih =>
    intro h
    simp only [List.map_cons, h x (List.mem_cons_self x xs),
      ih (fun a ha => h a (List.mem_cons_of_mem x ha))]

/-! ## Lemmas about the per-file loop -/

theorem collect_paths (c q : String) (M O : Nat) :
    ∀ ch ∈ collect_file_chunks c q M O, ch.file_path = q := by
  unfold collect_file_chunks
  generalize split_sections c = secs
  induction secs with
  | nil => intro ch h; simp at h
  | cons sec rest ih =>
    intro ch h
    simp only [List.foldr_cons, List.mem_append] at h
    rcases h with h | h
    · rcases List.mem_map.mp h with ⟨ct, _, rfl⟩; rfl
    · exact ih ch h

theorem chunksOf_collect_ne (c q : String) (M O : Nat) (p : String) (hne : q ≠ p) :
    chunksOf (collect_file_chunks c q M O) p = [] := by
  unfold chunksOf
  rw [List.filter_eq_nil_iff]
  intro ch hch
  simp [collect_paths c q M O ch hch, hne]

theorem chunksOf_collect_self (c q : String) (M O : Nat) :
    chunksOf (collect_file_chunks c q M O) q = collect_file_chunks c q M O := by
  unfold chunksOf
  rw [List.filter_eq_self]
  intro ch hch
  simp [collect_paths c q M O ch hch]

theorem upsertFile_path_map (fp h : String) (m : Int) (a : FileRow) :
    ((if a.file_path = fp then { a with content_hash := h, mtime := m } else a) :
      FileRow).file_path = a.file_path := by
  split <;> rfl

theorem upsertFile_chunks_eq {V : Type} (s : Store V) (fp h : String) (m : Int) :
    (upsertFile s fp h m).chunks = s.chunks := by
  unfold upsertFile; split <;> rfl

theorem upsertFile_nextId {V : Type} (s : Store V) (fp h : String) (m : Int) :
    (upsertFile s fp h m).nextChunkId = s.nextChunkId := by
  unfold upsertFile; split <;> rfl

theorem upsertFile_away {V : Type} (s : Store V) (fp h : String) (m : Int)
    (p : String) (hne : fp ≠ p) :
    filesAt (upsertFile s fp h m) p = filesAt s p := by
  unfold upsertFile filesAt
  split
  · rw [filter_map_key _ _ (fun a => by rw [upsertFile_path_map])]
    apply map_id_on
    intro a ha
    have : a.file_path = p := by
      have := List.of_mem_filter ha
      simpa using this
    rw [if_neg (by rw [this]; exact fun hh => hne hh.symm)]
  · simp only [List.filter_append]
    have : (([⟨fp, h, m⟩] : List FileRow).filter (fun r => decide (r.file_path = p))) = [] := by
      simp [hne]
    rw [this, List.append_nil]

theorem upsertFile_at {V : Type} (s : Store V) (p h : String) (m : Int) :
    filesAt (upsertFile s p h m) p =
      if s.files.any (fun r => decide (r.file_path = p)) = true
      then (filesAt s p).map (fun _ => (⟨p, h, m⟩ : FileRow))
      else filesAt s p ++ [(⟨p, h, m⟩ : FileRow)] := by
  unfold upsertFile filesAt
  split
  · rw [filter_map_key _ _ (fun a => by rw [upsertFile_path_map])]
    apply map_const_on
    intro a ha
    have hp : a.file_path = p := by
      have := List.of_mem_filter ha
      simpa using this
    rw [if_pos hp]
    cases a
    simp_all
  · simp

theorem processFile_skip_un {V : Type} (hashF : String → String) (ex : List FileRow)
    (M O : Nat) (acc : Store V × List VaultChunk) (f : DiskFile)
    (h : (lookupHash ex f.path).isSome) :
    processFile hashF "update-new" ex M O acc f = acc := by
  simp only [processFile]
  rw [if_pos ⟨trivial, h⟩]

theorem processFile_skip_ua {V : Type} (hashF : String → String) (ex : List FileRow)
    (M O : Nat) (acc : Store V × List VaultChunk) (f : DiskFile)
    (h : lookupHash ex f.path = some (hashF f.content)) :
    processFile hashF "update-all" ex M O acc f = acc := by
  simp only [processFile]
  rw [if_neg (fun hc => by simp at hc), if_pos ⟨trivial, h⟩]

theorem processFile_away {V : Type} (hashF : String → String) (mode : String)
    (ex : List FileRow) (M O : Nat) (acc : Store V × List VaultChunk)
    (f : DiskFile) (p : String) (hq : f.path ≠ p) :
    filesAt (processFile hashF mode ex M O acc f).1 p = filesAt acc.1 p ∧
    chunksAt (processFile hashF mode ex M O acc f).1 p = chunksAt acc.1 p ∧
    chunksOf (processFile hashF mode ex M O acc f).2 p = chunksOf acc.2 p ∧
    (processFile hashF mode ex M O acc f).1.nextChunkId = acc.1.nextChunkId := by
  simp only [processFile]
  by_cases h1 : mode = "update-new" ∧ (lookupHash ex f.path).isSome
  · rw [if_pos h1]; exact ⟨rfl, rfl, rfl, rfl⟩
  · rw [if_neg h1]
    by_cases h2 : mode = "update-all" ∧ lookupHash ex f.path = some (hashF f.content)
    · rw [if_pos h2]; exact ⟨rfl, rfl, rfl, rfl⟩
    · rw [if_neg h2]
      by_cases h3 : mode = "update-all" ∧ (lookupHash ex f.path).isSome
      · rw [if_pos h3]
        refine ⟨?_, ?_, ?_, ?_⟩
        · rw [upsertFile_away _ _ _ _ _ hq]; rfl
        · unfold chunksAt
          rw [upsertFile_chunks_eq]
          exact filter_of_filter_imp _ _
            (fun a ha => by
              simp only [decide_eq_true_eq] at ha ⊢
              rw [ha]; exact fun hh => hq hh.symm) _
        · unfold chunksOf
          rw [List.filter_append]
          rw [show (collect_file_chunks f.content f.path M O).filter
                (fun c => decide (c.file_path = p)) = [] from
              chunksOf_collect_ne _ _ _ _ _ hq]
          rw [List.append_nil]
        · rw [upsertFile_nextId]
      · rw [if_neg h3]
        refine ⟨?_, ?_, ?_, ?_⟩
        · rw [upsertFile_away _ _ _ _ _ hq]
        · unfold chunksAt
          rw [upsertFile_chunks_eq]
        · unfold chunksOf
          rw [List.filter_append]
          rw [show (collect_file_chunks f.content f.path M O).filter
                (fun c => decide (c.file_path = p)) = [] from
              chunksOf_collect_ne _ _ _ _ _ hq]
          rw [List.append_nil]
        · rw [upsertFile_nextId]

theorem processFile_changed {V : Type} (hashF : String → String) (ex : List FileRow)
    (M O : Nat) (acc : Store V × List VaultChunk) (f : DiskFile) (h0 : String)
    (hstored : lookupHash ex f.path = some h0) (hne : h0 ≠ hashF f.content)
    (hany : acc.1.files.any (fun r => decide (r.file_path = f.path)) = true) :
    filesAt (processFile hashF "update-all" ex M O acc f).1 f.path
      = (filesAt acc.1 f.path).map
          (fun _ => (⟨f.path, hashF f.content, f.mtime⟩ : FileRow)) ∧
    chunksAt (processFile hashF "update-all" ex M O acc f).1 f.path = [] ∧
    chunksOf (processFile hashF "update-all" ex M O acc f).2 f.path
      = chunksOf acc.2 f.path ++ collect_file_chunks f.content f.path M O ∧
    (processFile hashF "update-all" ex M O acc f).1.nextChunkId = acc.1.nextChunkId := by
  simp only [processFile]
  rw [if_neg (fun hc => by simp at hc)]
  rw [if_neg (fun hc => by
    rw [hstored] at hc
    exact hne (Option.some.inj hc.2))]
  rw [if_pos ⟨trivial, by rw [hstored]; rfl⟩]
  refine ⟨?_, ?_, ?_, ?_⟩
  · rw [upsertFile_at]
    rw [if_pos hany]
    rfl
  · unfold chunksAt
    rw [upsertFile_chunks_eq]
    exact filter_of_filter_excl _ _
      (fun a ha => by
        simp only [decide_eq_true_eq] at ha
        simp [ha]) _
  · unfold chunksOf
    rw [List.filter_append]
    rw [show (collect_file_chunks f.content f.path M O).filter
          (fun c => decide (c.file_path = f.path)) = collect_file_chunks f.content f.path M O from
        chunksOf_collect_self _ _ _ _]
  · rw [upsertFile_nextId]

theorem processFile_new {V : Type} (hashF : String → String) (mode : String)
    (ex : List FileRow) (M O : Nat) (acc : Store V × List VaultChunk) (f : DiskFile)
    (hstored : lookupHash ex f.path = none)
    (hany : acc.1.files.any (fun r => decide (r.file_path = f.path)) = false) :
    filesAt (processFile hashF mode ex M O acc f).1 f.path
      = filesAt acc.1 f.path ++ [(⟨f.path, hashF f.content, f.mtime⟩ : FileRow)] ∧
    chunksAt (processFile hashF mode ex M O acc f).1 f.path = chunksAt acc.1 f.path ∧
    chunksOf (processFile hashF mode ex M O acc f).2 f.path
      = chunksOf acc.2 f.path ++ collect_file_chunks f.content f.path M O ∧
    (processFile hashF mode ex M O acc f).1.nextChunkId = acc.1.nextChunkId := by
  simp only [processFile]
  rw [if_neg (fun hc => by rw [hstored] at hc; simp at hc)]
  rw [if_neg (fun hc => by rw [hstored] at hc; simp at hc)]
  rw [if_neg (fun hc => by rw [hstored] at hc; simp at hc)]
  refine ⟨?_, ?_, ?_, ?_⟩
  · rw [upsertFile_at]
    rw [if_neg (by rw [hany]; simp)]
  · unfold chunksAt
    rw [upsertFile_chunks_eq]
  · unfold chunksOf
    rw [List.filter_append]
    rw [show (collect_file_chunks f.content f.path M O).filter
          (fun c => decide (c.file_path = f.path)) = collect_file_chunks f.content f.path M O from
        chunksOf_collect_self _ _ _ _]
  · rw [upsertFile_nextId]

/-! ## Fold lemmas over the per-file loop -/

theorem foldl_away {V : Type} (hashF : String → String) (mode : String)
    (ex : List FileRow) (M O : Nat) (p : String) :
    ∀ (l : List DiskFile), (∀ g ∈ l, g.path ≠ p) →
      ∀ (acc : Store V × List VaultChunk),
      filesAt (l.foldl (processFile hashF mode ex M O) acc).1 p = filesAt acc.1 p ∧
      chunksAt (l.foldl (processFile hashF mode ex M O) acc).1 p = chunksAt acc.1 p ∧
      chunksOf (l.foldl (processFile hashF mode ex M O) acc).2 p = chunksOf acc.2 p ∧
      (l.foldl (processFile hashF mode ex M O) acc).1.nextChunkId = acc.1.nextChunkId := by
  intro l
  induction l with
  | nil => intro _ acc; exact ⟨rfl, rfl, rfl, rfl⟩
  | cons g gs ih =>
    intro h acc
    simp only [List.foldl_cons]
    have hg : g.path ≠ p := h g (List.mem_cons_self g gs)
    have hstep := processFile_away hashF mode ex M O acc g p hg
    have hrest := ih (fun x hx => h x (List.mem_cons_of_mem g hx))
      (processFile hashF mode ex M O acc g)
    exact ⟨hrest.1.trans hstep.1, hrest.2.1.trans hstep.2.1,
      hrest.2.2.1.trans hstep.2.2.1, hrest.2.2.2.trans hstep.2.2.2⟩

/-! ## The sorted scan is a permutation of the raw scan -/

theorem insertByPath_perm (x : DiskFile) :
    ∀ l : List DiskFile, List.Perm (insertByPath x l) (x :: l) := by
  intro l
  induction l with
  | nil => exact List.Perm.refl _
  | cons y ys ih =>
    unfold insertByPath
    split
    · exact (ih.cons y).trans (List.Perm.swap x y ys)
    · exact List.Perm.refl _

theorem sortByPath_perm : ∀ l : List DiskFile, List.Perm (sortByPath l) l := by
  intro l
  induction l with
  | nil => exact List.Perm.refl _
  | cons x xs ih => exact (insertByPath_perm x (sortByPath xs)).trans (ih.cons x)

theorem sorted_split {fs : List DiskFile} {f : DiskFile} (hmem : f ∈ fs)
    (hnodup : (fs.map (fun g => g.path)).Nodup) :
    ∃ l1 l2, sortByPath fs = l1 ++ f :: l2 ∧
      (∀ g ∈ l1, g.path ≠ f.path) ∧ (∀ g ∈ l2, g.path ≠ f.path) := by
  have hmem' : f ∈ sortByPath fs := ((sortByPath_perm fs).mem_iff).mpr hmem
  rcases List.append_of_mem hmem' with ⟨l1, l2, heq⟩
  have hnd : ((sortByPath fs).map (fun g => g.path)).Nodup :=
    (((sortByPath_perm fs).map (fun g => g.path)).nodup_iff).mpr hnodup
  rw [heq, List.map_append, List.map_cons] at hnd
  rcases List.nodup_append.mp hnd with ⟨_, hnd2, hdisj⟩
  refine ⟨l1, l2, heq, ?_, ?_⟩
  · intro g hg hpath
    exact hdisj (List.mem_map_of_mem _ hg) (by rw [hpath]; exact List.mem_cons_self _ _)
  · intro g hg hpath
    rcases List.nodup_cons.mp hnd2 with ⟨hnotin, _⟩
    exact hnotin (hpath ▸ List.mem_map_of_mem (fun g => g.path) hg)

/-! ## Cleanup lemmas -/

theorem cleanupStore_live {V : Type} (s : Store V) (ex live : List String)
    (q : String) (hq : q ∈ live) :
    filesAt (cleanupStore s ex live) q = filesAt s q ∧
    chunksAt (cleanupStore s ex live) q = chunksAt s q ∧
    (cleanupStore s ex live).nextChunkId = s.nextChunkId := by
  have hnm : q ∉ ex.filter (fun p => decide (p ∉ live)) := by
    intro hin
    have := List.of_mem_filter hin
    simp only [decide_eq_true_eq] at this
    exact this hq
  unfold cleanupStore filesAt chunksAt
  refine ⟨?_, ?_, rfl⟩
  · apply filter_of_filter_imp
    intro a ha
    simp only [decide_eq_true_eq] at ha ⊢
    rw [ha]; exact hnm
  · apply filter_of_filter_imp
    intro a ha
    simp only [decide_eq_true_eq] at ha ⊢
    rw [ha]; exact hnm

theorem cleanupStore_missing {V : Type} (s : Store V) (ex live : List String)
    (p : String) (hex : p ∈ ex) (hlive : p ∉ live) :
    filesAt (cleanupStore s ex live) p = [] ∧
    chunksAt (cleanupStore s ex live) p = [] := by
  have hmiss : p ∈ ex.filter (fun q => decide (q ∉ live)) :=
    List.mem_filter.mpr ⟨hex, by simp [hlive]⟩
  unfold cleanupStore filesAt chunksAt
  constructor <;>
  · apply filter_of_filter_excl
    intro a ha
    simp only [decide_eq_true_eq] at ha
    simp only [ha, decide_eq_false_iff_not, Decidable.not_not]
    exact hmiss

/-! ## Whole-loop observations for the three per-file scenarios -/

theorem any_iff_filter {α : Type} (pred : α → Bool) (l : List α) :
    l.any pred = true ↔ l.filter pred ≠ [] := by
  rw [List.any_eq_true, Ne, List.filter_eq_nil_iff]
  constructor
  · rintro ⟨x, hx, hpx⟩ hall
    exact (hall x hx) hpx
  · intro h
    by_contra hno
    push_neg at hno
    exact h (fun a ha hpa => hno a ha hpa)

theorem processFiles_skip_obs {V : Type} (hashF : String → String) (mode : String)
    (ex : List FileRow) (M O : Nat) (s2 : Store V) (fs : List DiskFile) (f : DiskFile)
    (hmem : f ∈ fs) (hnodup : (fs.map (fun g => g.path)).Nodup)
    (hskip : ∀ a : Store V × List VaultChunk, processFile hashF mode ex M O a f = a) :
    filesAt (processFiles hashF mode ex M O s2 fs).1 f.path = filesAt s2 f.path ∧
    chunksAt (processFiles hashF mode ex M O s2 fs).1 f.path = chunksAt s2 f.path ∧
    chunksOf (processFiles hashF mode ex M O s2 fs).2 f.path = [] ∧
    (processFiles hashF mode ex M O s2 fs).1.nextChunkId = s2.nextChunkId := by
  rcases sorted_split hmem hnodup with ⟨l1, l2, heq, h1, h2⟩
  unfold processFiles
  rw [heq, List.foldl_append, List.foldl_cons, hskip _]
  have hl1 := foldl_away hashF mode ex M O f.path l1 h1 (s2, [])
  have hl2 := foldl_away hashF mode ex M O f.path l2 h2
    (l1.foldl (processFile hashF mode ex M O) (s2, []))
  refine ⟨hl2.1.trans hl1.1, hl2.2.1.trans hl1.2.1, hl2.2.2.1.trans hl1.2.2.1,
    hl2.2.2.2.trans hl1.2.2.2⟩

theorem processFiles_changed_obs {V : Type} (hashF : String → String)
    (ex : List FileRow) (M O : Nat) (s2 : Store V) (fs : List DiskFile) (f : DiskFile)
    (h0 : String) (hmem : f ∈ fs) (hnodup : (fs.map (fun g => g.path)).Nodup)
    (hstored : lookupHash ex f.path = some h0) (hne : h0 ≠ hashF f.content)
    (hfiles : s2.files.any (fun r => decide (r.file_path = f.path)) = true) :
    filesAt (processFiles hashF "update-all" ex M O s2 fs).1 f.path
      = (filesAt s2 f.path).map (fun _ => (⟨f.path, hashF f.content, f.mtime⟩ : FileRow)) ∧
    chunksAt (processFiles hashF "update-all" ex M O s2 fs).1 f.path = [] ∧
    chunksOf (processFiles hashF "update-all" ex M O s2 fs).2 f.path
      = collect_file_chunks f.content f.path M O ∧
    (processFiles hashF "update-all" ex M O s2 fs).1.nextChunkId = s2.nextChunkId := by
  rcases sorted_split hmem hnodup with ⟨l1, l2, heq, h1, h2⟩
  unfold processFiles
  rw [heq, List.foldl_append, List.foldl_cons]
  have hl1 := foldl_away hashF "update-all" ex M O f.path l1 h1 (s2, [])
  set acc1 := l1.foldl (processFile hashF "update-all" ex M O) (s2, []) with hacc1
  have hany1 : acc1.1.files.any (fun r => decide (r.file_path = f.path)) = true := by
    rw [any_iff_filter] at hfiles ⊢
    have : filesAt acc1.1 f.path = filesAt s2 f.path := hl1.1
    unfold filesAt at this
    rw [this]
    exact hfiles
  have hstep := processFile_changed hashF ex M O acc1 f h0 hstored hne hany1
  have hl2 := foldl_away hashF "update-all" ex M O f.path l2 h2
    (processFile hashF "update-all" ex M O acc1 f)
  refine ⟨?_, ?_, ?_, ?_⟩
  · rw [hl2.1, hstep.1, hl1.1]
  · rw [hl2.2.1, hstep.2.1]
  · rw [hl2.2.2.1, hstep.2.2.1, hl1.2.2.1]
    have : chunksOf ((s2, ([] : List VaultChunk)).2) f.path = [] := rfl
    rw [this, List.nil_append]
  · rw [hl2.2.2.2, hstep.2.2.2, hl1.2.2.2]

theorem processFiles_new_obs {V : Type} (hashF : String → String) (mode : String)
    (ex : List FileRow) (M O : Nat) (s2 : Store V) (fs : List DiskFile) (f : DiskFile)
    (hmem : f ∈ fs) (hnodup : (fs.map (fun g => g.path)).Nodup)
    (hstored : lookupHash ex f.path = none)
    (hfiles : s2.files.any (fun r => decide (r.file_path = f.path)) = false) :
    filesAt (processFiles hashF mode ex M O s2 fs).1 f.path
      = filesAt s2 f.path ++ [(⟨f.path, hashF f.content, f.mtime⟩ : FileRow)] ∧
    chunksAt (processFiles hashF mode ex M O s2 fs).1 f.path = chunksAt s2 f.path ∧
    chunksOf (processFiles hashF mode ex M O s2 fs).2 f.path
      = collect_file_chunks f.content f.path M O ∧
    (processFiles hashF mode ex M O s2 fs).1.nextChunkId = s2.nextChunkId := by
  rcases sorted_split hmem hnodup with ⟨l1, l2, heq, h1, h2⟩
  unfold processFiles
  rw [heq, List.foldl_append, List.foldl_cons]
  have hl1 := foldl_away hashF mode ex M O f.path l1 h1 (s2, [])
  set acc1 := l1.foldl (processFile hashF mode ex M O) (s2, []) with hacc1
  have hany1 : acc1.1.files.any (fun r => decide (r.file_path = f.path)) = false := by
    have hiff := any_iff_filter (fun r => decide (r.file_path = f.path)) acc1.1.files
    have heqf : filesAt acc1.1 f.path = filesAt s2 f.path := hl1.1
    unfold filesAt at heqf
    cases hres : acc1.1.files.any (fun r => decide (r.file_path = f.path)) with
    | false => rfl
    | true =>
      exfalso
      have := (hiff.mp hres)
      rw [heqf] at this
      have hiff2 := any_iff_filter (fun r => decide (r.file_path = f.path)) s2.files
      exact absurd (hiff2.mpr this) (by rw [hfiles]; simp)
  have hstep := processFile_new hashF mode ex M O acc1 f hstored hany1
  have hl2 := foldl_away hashF mode ex M O f.path l2 h2
    (processFile hashF mode ex M O acc1 f)
  refine ⟨?_, ?_, ?_, ?_⟩
  · rw [hl2.1, hstep.1, hl1.1]
  · rw [hl2.2.1, hstep.2.1, hl1.2.1]
  · rw [hl2.2.2.1, hstep.2.2.1, hl1.2.2.1]
    have : chunksOf ((s2, ([] : List VaultChunk)).2) f.path = [] := rfl
    rw [this, List.nil_append]
  · rw [hl2.2.2.2, hstep.2.2.2, hl1.2.2.2]

/-! ## Lemmas about the embedding/insert phase -/

theorem insertRows_fold {V : Type} :
    ∀ (pairs : List (VaultChunk × V)) (s : Store V),
      (pairs.foldl insertChunkRow s).files = s.files ∧
      (∃ extra, (pairs.foldl insertChunkRow s).chunks = s.chunks ++ extra ∧
        ∀ r ∈ extra, (∃ cv, cv ∈ pairs ∧ r.file_path = (cv : VaultChunk × V).1.file_path) ∧
          s.nextChunkId ≤ r.chunk_id) ∧
      s.nextChunkId ≤ (pairs.foldl insertChunkRow s).nextChunkId := by
  intro pairs
  induction pairs with
  | nil =>
    intro s
    exact ⟨rfl, ⟨[], by simp, by simp⟩, le_refl _⟩
  | cons cv rest ih =>
    intro s
    simp only [List.foldl_cons]
    rcases ih (insertChunkRow s cv) with ⟨hf, ⟨extra, hch, hprop⟩, hmono⟩
    refine ⟨by rw [hf]; rfl,
      ⟨⟨s.nextChunkId, cv.1.file_path, cv.1.heading_path, cv.1.text, cv.2⟩ :: extra, ?_, ?_⟩,
      ?_⟩
    · rw [hch]
      show (s.chunks ++ [_]) ++ extra = _
      rw [List.append_assoc]
      rfl
    · intro r hr
      rcases List.mem_cons.mp hr with rfl | hr
      · exact ⟨⟨cv, List.mem_cons_self _ _, rfl⟩, le_refl _⟩
      · rcases hprop r hr with ⟨⟨cv', hcv', hpath⟩, hid⟩
        refine ⟨⟨cv', List.mem_cons_of_mem _ hcv', hpath⟩, ?_⟩
        exact le_trans (Nat.le_succ _) hid
    · exact le_trans (Nat.le_succ _) hmono

theorem embedBatch_ok {V : Type} (embed : List String → Except Unit (List V))
    (s s' : Store V) (b : List VaultChunk) (h : embedBatch embed s b = .ok s') :
    s'.files = s.files ∧
    (∃ extra, s'.chunks = s.chunks ++ extra ∧
      ∀ r ∈ extra, (∃ ch, ch ∈ b ∧ r.file_path = (ch : VaultChunk).file_path) ∧
        s.nextChunkId ≤ r.chunk_id) ∧
    s.nextChunkId ≤ s'.nextChunkId := by
  unfold embedBatch at h
  cases hemb : embed (b.map fun c => c.text) with
  | error e => rw [hemb] at h; exact absurd h (by simp)
  | ok vectors =>
    rw [hemb] at h
    dsimp only at h
    by_cases hlen : b.length = vectors.length
    · rw [if_pos hlen] at h
      have hs' : ((b.zip vectors).foldl insertChunkRow s) = s' := Except.ok.inj h
      rcases insertRows_fold (b.zip vectors) s with ⟨hf, ⟨extra, hch, hprop⟩, hmono⟩
      rw [hs'] at hf hch hmono
      refine ⟨hf, ⟨extra, hch, ?_⟩, hmono⟩
      intro r hr
      rcases hprop r hr with ⟨⟨cv, hcv, hpath⟩, hid⟩
      exact ⟨⟨cv.1, (List.of_mem_zip hcv).1, hpath⟩, hid⟩
    · rw [if_neg hlen] at h; exact absurd h (by simp)

theorem embedAll_ok {V : Type} (embed : List String → Except Unit (List V)) :
    ∀ (bts : List (List VaultChunk)) (s s' : Store V),
      embedAll embed s bts = .ok s' →
      s'.files = s.files ∧
      (∃ extra, s'.chunks = s.chunks ++ extra ∧
        ∀ r ∈ extra, (∃ bch, bch ∈ bts ∧ ∃ ch, ch ∈ bch ∧
            r.file_path = (ch : VaultChunk).file_path) ∧
          s.nextChunkId ≤ r.chunk_id) ∧
      s.nextChunkId ≤ s'.nextChunkId := by
  intro bts
  induction bts with
  | nil =>
    intro s s' h
    have : s = s' := Except.ok.inj h
    subst this
    exact ⟨rfl, ⟨[], by simp, by simp⟩, le_refl _⟩
  | cons b rest ih =>
    intro s s' h
    unfold embedAll at h
    cases hb : embedBatch embed s b with
    | error e => rw [hb] at h; exact absurd h (by simp)
    | ok s2 =>
      rw [hb] at h
      rcases embedBatch_ok embed s s2 b hb with ⟨hf1, ⟨e1, hch1, hp1⟩, hm1⟩
      rcases ih s2 s' h with ⟨hf2, ⟨e2, hch2, hp2⟩, hm2⟩
      refine ⟨hf2.trans hf1, ⟨e1 ++ e2, ?_, ?_⟩, le_trans hm1 hm2⟩
      · rw [hch2, hch1, List.append_assoc]
      · intro r hr
        rcases List.mem_append.mp hr with hr | hr
        · rcases hp1 r hr with ⟨⟨ch, hch, hpath⟩, hid⟩
          exact ⟨⟨b, List.mem_cons_self _ _, ch, hch, hpath⟩, hid⟩
        · rcases hp2 r hr with ⟨⟨bch, hbch, ch, hch, hpath⟩, hid⟩
          exact ⟨⟨bch, List.mem_cons_of_mem _ hbch, ch, hch, hpath⟩, le_trans hm1 hid⟩

theorem batched_mem {α : Type} (items : List α) (bs : Int) (bts : List (List α))
    (h : batched items bs = .ok bts) : ∀ b ∈ bts, ∀ ch ∈ b, ch ∈ items := by
  unfold batched at h
  by_cases h0 : bs = 0
  · rw [if_pos h0] at h; exact absurd h (by simp)
  · rw [if_neg h0] at h
    by_cases hneg : bs < 0
    · rw [if_pos hneg] at h
      have : ([] : List (List α)) = bts := Except.ok.inj h
      subst this
      intro b hb; simp at hb
    · rw [if_neg hneg] at h
      have hbts : _ = bts := Except.ok.inj h
      subst hbts
      intro b hb ch hch
      rcases List.mem_map.mp hb with ⟨i, _, rfl⟩
      exact List.drop_subset i items (List.take_subset _ _ hch)

/-! ## Destructing a successful `index_vault` call -/

theorem index_vault_ok_elim {V : Type} (hashF : String → String) (vn : String)
    (fs : List DiskFile) (store0 : Option (Store V))
    (embed : List String → Except Unit (List V)) (mode : String) (M O : Nat)
    (bs : Int) (cd : Bool) (r1 : Option (Store V)) (n : Nat)
    (h : index_vault hashF vn (some fs) store0 embed mode M O bs cd = (r1, .ok n)) :
    ∃ sf, r1 = some sf ∧
      indexBody hashF fs (openedStore mode store0) embed mode M O bs cd = .ok (sf, n) := by
  unfold index_vault at h
  dsimp only at h
  by_cases hname : pyStrip vn = ""
  · rw [if_pos hname] at h
    exact absurd (congrArg Prod.snd h) (by simp)
  · rw [if_neg hname] at h
    by_cases hmode : mode = "rebuild" ∨ mode = "update-all" ∨ mode = "update-new"
    · rw [if_pos hmode] at h
      cases hbody : indexBody hashF fs (openedStore mode store0) embed mode M O bs cd with
      | ok pr =>
        obtain ⟨sf, k⟩ := pr
        rw [hbody] at h
        have h1 : some sf = r1 := congrArg Prod.fst h
        have h2 : (Except.ok k : Except PyError Nat) = .ok n := congrArg Prod.snd h
        have hk : k = n := Except.ok.inj h2
        exact ⟨sf, h1.symm, by simp [hk]⟩
      | error e =>
        rw [hbody] at h
        exact absurd (congrArg Prod.snd h) (by simp)
    · rw [if_neg hmode] at h
      exact absurd (congrArg Prod.snd h) (by simp)

theorem indexBody_ok_elim {V : Type} (hashF : String → String) (fs : List DiskFile)
    (s1 : Store V) (embed : List String → Except Unit (List V)) (mode : String)
    (M O : Nat) (bs : Int) (cd : Bool) (sf : Store V) (n : Nat)
    (h : indexBody hashF fs s1 embed mode M O bs cd = .ok (sf, n)) :
    ∃ bts,
      batched (loopState hashF fs s1 mode M O cd).2 bs = .ok bts ∧
      embedAll embed (loopState hashF fs s1 mode M O cd).1 bts = .ok sf ∧
      n = (loopState hashF fs s1 mode M O cd).2.length := by
  unfold indexBody at h
  dsimp only at h
  cases hb : batched (loopState hashF fs s1 mode M O cd).2 bs with
  | error e => rw [hb] at h; exact absurd h (by simp)
  | ok bts =>
    rw [hb] at h
    dsimp only at h
    cases he : embedAll embed (loopState hashF fs s1 mode M O cd).1 bts with
    | error e => rw [he] at h; exact absurd h (by simp)
    | ok s4 =>
      rw [he] at h
      dsimp only at h
      have := Except.ok.inj h
      refine ⟨bts, rfl, ?_, ?_⟩
      · rw [he, show s4 = sf from congrArg Prod.fst this]
      · exact (congrArg Prod.snd this).symm

/-! ## More shared helpers for the indexer claims -/

theorem cleanupStore_nextId {V : Type} (s : Store V) (ex live : List String) :
    (cleanupStore s ex live).nextChunkId = s.nextChunkId := rfl

theorem loopState_update {V : Type} (hashF : String → String) (fs : List DiskFile)
    (s1 : Store V) (mode : String) (M O : Nat) (cd : Bool) (hnr : mode ≠ "rebuild") :
    loopState hashF fs s1 mode M O cd =
      processFiles hashF mode s1.files M O
        (if cd = true then
          cleanupStore s1 (s1.files.map (fun r => r.file_path)) (fs.map (fun f => f.path))
         else s1) fs := by
  unfold loopState
  dsimp only
  by_cases hcd : cd = true
  · rw [if_neg hnr, if_pos (show mode ≠ "rebuild" ∧ cd = true from ⟨hnr, hcd⟩),
      if_pos hcd]
  · rw [if_neg hnr,
      if_neg (show ¬(mode ≠ "rebuild" ∧ cd = true) from fun hc => hcd hc.2),
      if_neg hcd]

theorem filter_path_unique (p : String) :
    ∀ (l : List FileRow), ((l.map (fun r => r.file_path)).Nodup) →
      l.filter (fun r => decide (r.file_path = p)) =
        (l.find? (fun r => decide (r.file_path = p))).toList := by
  intro l
  induction l with
  | nil => intro _; rfl
  | cons r rs ih =>
    intro hnd
    rw [List.map_cons, List.nodup_cons] at hnd
    by_cases hp : r.file_path = p
    · rw [List.filter_cons_of_pos (by simp [hp]), List.find?_cons_of_pos _ (by simp [hp])]
      have hnil : rs.filter (fun r => decide (r.file_path = p)) = [] := by
        rw [List.filter_eq_nil_iff]
        intro a ha hpa
        simp only [decide_eq_true_eq] at hpa
        exact hnd.1 (by rw [hp, ← hpa]; exact List.mem_map_of_mem _ ha)
      rw [hnil]
      rfl
    · rw [List.filter_cons_of_neg (by simp [hp]), List.find?_cons_of_neg _ (by simp [hp])]
      exact ih hnd.2

theorem embed_final_away {V : Type} (embed : List String → Except Unit (List V))
    (bts : List (List VaultChunk)) (pr1 sf : Store V) (p : String)
    (collected : List VaultChunk)
    (hemb : embedAll embed pr1 bts = .ok sf)
    (hbts : ∀ b ∈ bts, ∀ ch ∈ b, ch ∈ collected)
    (hcoll : ∀ ch ∈ collected, (ch : VaultChunk).file_path ≠ p) :
    filesAt sf p = filesAt pr1 p ∧ chunksAt sf p = chunksAt pr1 p := by
  rcases embedAll_ok embed bts pr1 sf hemb with ⟨hf, ⟨extra, hch, hprop⟩, _⟩
  constructor
  · unfold filesAt; rw [hf]
  · unfold chunksAt
    rw [hch, List.filter_append]
    have hnil : extra.filter (fun c => decide (c.file_path = p)) = [] := by
      rw [List.filter_eq_nil_iff]
      intro r hr hpr
      rcases hprop r hr with ⟨⟨bch, hbch, ch, hchb, hpath⟩, _⟩
      simp only [decide_eq_true_eq] at hpr
      exact hcoll ch (hbts bch hbch ch hchb) (by rw [← hpath, hpr])
    rw [hnil, List.append_nil]

/-! ## Claim theorems: atomicity (C1) and batch-size validation (C7) -/

/-- C1, counterexample.  In `rebuild` mode the index file is unlinked before
the transaction begins, so a provider failure mid-run leaves a fresh empty
store, not the pre-call store: here the pre-call store held one file record
and one chunk row, and after the failed call the persisted store is empty. -/
theorem index_vault_rebuild_failure_counterexample :
    index_vault (V := Nat) id "v" (some [⟨"a.md", "alpha", 0⟩])
        (some ⟨[⟨"a.md", "alpha", 0⟩], [⟨0, "a.md", "", "alpha", 7⟩], 1⟩)
        (fun _ => .error ()) "rebuild" 800 100 16 false
      = (some (emptyStore Nat), .error .providerFailure) ∧
    (some (emptyStore Nat) : Option (Store Nat)) ≠
      some ⟨[⟨"a.md", "alpha", 0⟩], [⟨0, "a.md", "", "alpha", 7⟩], 1⟩ := by
  refine ⟨by decide, by decide⟩

/-- C1, amended.  In the `update-all` and `update-new` modes, when the index
store already exists, every failure (validation errors included, and any
mid-run error such as a provider failure) leaves the persisted store exactly
as it was before the call: the sqlite context manager rolls the implicit
transaction back.  In `rebuild` mode the pre-existing index file is deleted
before the transaction begins, so this guarantee does not hold there (see
the counterexample). -/
theorem index_vault_update_failure_rollback {V : Type} (hashF : String → String)
    (vault_name : String) (disk : Option (List DiskFile)) (s : Store V)
    (embed : List String → Except Unit (List V)) (mode : String)
    (M O : Nat) (bs : Int) (cd : Bool)
    (hmode : mode = "update-all" ∨ mode = "update-new") (e : PyError)
    (herr : (index_vault hashF vault_name disk (some s) embed mode M O bs cd).2
      = .error e) :
    (index_vault hashF vault_name disk (some s) embed mode M O bs cd).1 = some s := by
  have hnr : mode ≠ "rebuild" := by
    rcases hmode with h | h <;> subst h <;> decide
  cases disk with
  | none =>
    unfold index_vault
    dsimp only
    by_cases hname : pyStrip vault_name = ""
    · rw [if_pos hname]
    · rw [if_neg hname]
  | some fs =>
    unfold index_vault at herr ⊢
    dsimp only at herr ⊢
    by_cases hname : pyStrip vault_name = ""
    · rw [if_pos hname]
    · rw [if_neg hname] at herr ⊢
      have hv : mode = "rebuild" ∨ mode = "update-all" ∨ mode = "update-new" :=
        Or.inr hmode
      rw [if_pos hv] at herr ⊢
      cases hbody : indexBody hashF fs (openedStore mode (some s)) embed mode M O bs cd with
      | ok pr =>
        obtain ⟨s4, k⟩ := pr
        rw [hbody] at herr
        exact absurd herr (by simp)
      | error e2 =>
        show some (openedStore mode (some s)) = some s
        unfold openedStore
        rw [if_neg hnr]
        rfl

/-- C1, witness for the amended theorem: a concrete `update-all` run whose
provider fails leaves the (empty) pre-call store untouched. -/
theorem index_vault_update_failure_rollback_witness :
    ("update-all" = "update-all" ∨ "update-all" = "update-new") ∧
    (index_vault (V := Nat) id "v" (some [⟨"a.md", "alpha", 0⟩])
        (some (emptyStore Nat)) (fun _ => .error ()) "update-all" 800 100 16 false).2
      = .error .providerFailure ∧
    (index_vault (V := Nat) id "v" (some [⟨"a.md", "alpha", 0⟩])
        (some (emptyStore Nat)) (fun _ => .error ()) "update-all" 800 100 16 false).1
      = some (emptyStore Nat) :=
  ⟨Or.inl rfl, by decide,
    index_vault_update_failure_rollback id "v" (some [⟨"a.md", "alpha", 0⟩])
      (emptyStore Nat) (fun _ => .error ()) "update-all" 800 100 16 false
      (Or.inl rfl) .providerFailure (by decide)⟩

/-- C7, counterexample.  With `batch_size = -1`, Python's
`range(0, len(chunks), -1)` is empty, so `_batched` returns no batches and
the call completes normally with `.ok 1` (the collected-chunk count) while
inserting no chunk rows — it does not fail with a `ValueError`
(InvalidArgument). -/
theorem index_vault_negative_batch_counterexample :
    index_vault (V := Nat) id "v" (some [⟨"a.md", "alpha", 0⟩])
        (some (emptyStore Nat)) (fun ts => .ok (ts.map fun _ => 0))
        "update-all" 800 100 (-1) false
      = (some ⟨[⟨"a.md", "alpha", 0⟩], [], 0⟩, .ok 1) := by decide

/-- C7, amended.  `batch_size = 0` makes `range` raise a `ValueError`
(the InvalidArgument class of the spec), aborting the run with the store
rolled back; but `batch_size < 0` yields an empty batch list, so the run
completes normally, returns the collected-chunk count, and persists the
loop-phase store without inserting a single chunk row. -/
theorem index_vault_batch_size {V : Type} (hashF : String → String) (vn : String)
    (fs : List DiskFile) (store0 : Option (Store V))
    (embed : List String → Except Unit (List V)) (mode : String) (M O : Nat)
    (bs : Int) (cd : Bool)
    (hname : pyStrip vn ≠ "")
    (hmode : mode = "rebuild" ∨ mode = "update-all" ∨ mode = "update-new") :
    (bs = 0 →
      index_vault hashF vn (some fs) store0 embed mode M O bs cd
        = (some (openedStore mode store0),
           .error (.valueError "range() arg 3 must not be zero"))) ∧
    (bs < 0 →
      index_vault hashF vn (some fs) store0 embed mode M O bs cd
        = (some (loopState hashF fs (openedStore mode store0) mode M O cd).1,
           .ok (loopState hashF fs (openedStore mode store0) mode M O cd).2.length)) := by
  constructor
  · intro h0
    subst h0
    have hbody : indexBody hashF fs (openedStore mode store0) embed mode M O 0 cd
        = .error (.valueError "range() arg 3 must not be zero") := rfl
    unfold index_vault
    dsimp only
    rw [if_neg hname, if_pos hmode, hbody]
  · intro hneg
    have hb : batched (loopState hashF fs (openedStore mode store0) mode M O cd).2 bs
        = .ok [] := by
      unfold batched
      rw [if_neg (by omega), if_pos hneg]
    have hbody : indexBody hashF fs (openedStore mode store0) embed mode M O bs cd
        = .ok ((loopState hashF fs (openedStore mode store0) mode M O cd).1,
               (loopState hashF fs (openedStore mode store0) mode M O cd).2.length) := by
      unfold indexBody
      dsimp only
      rw [hb]
      rfl
    unfold index_vault
    dsimp only
    rw [if_neg hname, if_pos hmode, hbody]

/-- C7, witness for the amended theorem at a concrete run with
`batch_size = -1`. -/
theorem index_vault_batch_size_witness :
    pyStrip "v" ≠ "" ∧
    ("update-all" = "rebuild" ∨ "update-all" = "update-all" ∨
      "update-all" = "update-new") ∧
    (((-1 : Int) = 0 →
      index_vault (V := Nat) id "v" (some [⟨"a.md", "alpha", 0⟩])
          (some (emptyStore Nat)) (fun ts => .ok (ts.map fun _ => 0))
          "update-all" 800 100 (-1) false
        = (some (openedStore "update-all" (some (emptyStore Nat))),
           .error (.valueError "range() arg 3 must not be zero"))) ∧
     ((-1 : Int) < 0 →
      index_vault (V := Nat) id "v" (some [⟨"a.md", "alpha", 0⟩])
          (some (emptyStore Nat)) (fun ts => .ok (ts.map fun _ => 0))
          "update-all" 800 100 (-1) false
        = (some (loopState id [⟨"a.md", "alpha", 0⟩] (openedStore "update-all"
              (some (emptyStore Nat))) "update-all" 800 100 false).1,
           .ok (loopState id [⟨"a.md", "alpha", 0⟩] (openedStore "update-all"
              (some (emptyStore Nat))) "update-all" 800 100 false).2.length))) :=
  ⟨by decide, Or.inr (Or.inl rfl),
    index_vault_batch_size id "v" [⟨"a.md", "alpha", 0⟩] (some (emptyStore Nat))
      (fun ts => .ok (ts.map fun _ => 0)) "update-all" 800 100 (-1) false
      (by decide) (Or.inr (Or.inl rfl))⟩

/-! ## Claim theorems: cleanup of deleted files (C4) -/

/-- C4, counterexample.  With `cleanup_deleted` disabled, a `rebuild`
invocation still removes the `files` and `chunks` rows of a file that is no
longer on disk (the whole store is discarded up front), so those rows are
not "left untouched" in every mode. -/
theorem index_vault_cleanup_disabled_counterexample :
    index_vault (V := Nat) id "v" (some [])
        (some ⟨[⟨"gone.md", "x", 0⟩], [⟨0, "gone.md", "", "x", 7⟩], 1⟩)
        (fun ts => .ok (ts.map fun _ => 0)) "rebuild" 800 100 16 false
      = (some (emptyStore Nat), .ok 0) ∧
    filesAt (emptyStore Nat) "gone.md" = [] ∧
    filesAt (⟨[⟨"gone.md", "x", 0⟩], [⟨0, "gone.md", "", "x", 7⟩], 1⟩ : Store Nat)
        "gone.md" ≠ [] := by
  refine ⟨by decide, by decide, by decide⟩

/-- C4, amended.  In the `update-all` and `update-new` modes a successful
invocation behaves as the claim says: with `cleanup_deleted` enabled, every
`files` row and every `chunks` row of a path that is no longer on disk is
deleted (before per-file processing); with it disabled, those rows are left
exactly untouched.  In `rebuild` mode the whole store is discarded
regardless of the flag, so the "left untouched when disabled" half fails
there (see the counterexample). -/
theorem index_vault_cleanup_update_modes {V : Type} (hashF : String → String)
    (vn : String) (fs : List DiskFile) (s : Store V)
    (embed : List String → Except Unit (List V)) (mode : String) (M O : Nat)
    (bs : Int) (cd : Bool) (r1 : Option (Store V)) (n : Nat) (p : String)
    (hmode : mode = "update-all" ∨ mode = "update-new")
    (hrec : p ∈ s.files.map (fun r => r.file_path))
    (hgone : p ∉ fs.map (fun f => f.path))
    (hok : index_vault hashF vn (some fs) (some s) embed mode M O bs cd = (r1, .ok n)) :
    ∃ sf, r1 = some sf ∧
      (cd = true → filesAt sf p = [] ∧ chunksAt sf p = []) ∧
      (cd = false → filesAt sf p = filesAt s p ∧ chunksAt sf p = chunksAt s p) := by
  have hnr : mode ≠ "rebuild" := by
    rcases hmode with h | h <;> subst h <;> decide
  rcases index_vault_ok_elim hashF vn fs (some s) embed mode M O bs cd r1 n hok
    with ⟨sf, hr1, hbody⟩
  have hopen : openedStore mode (some s) = s := by
    unfold openedStore; rw [if_neg hnr]; rfl
  rw [hopen] at hbody
  rcases indexBody_ok_elim hashF fs s embed mode M O bs cd sf n hbody
    with ⟨bts, hb, he, hn⟩
  rw [loopState_update hashF fs s mode M O cd hnr] at hb he
  set S2 : Store V :=
    if cd = true then
      cleanupStore s (s.files.map (fun r => r.file_path)) (fs.map (fun f => f.path))
    else s with hS2
  set pr := processFiles hashF mode s.files M O S2 fs with hpr
  have hnodisk : ∀ g ∈ sortByPath fs, g.path ≠ p := by
    intro g hg hp
    exact hgone (hp ▸ List.mem_map_of_mem _ ((sortByPath_perm fs).subset hg))
  have haway := foldl_away hashF mode s.files M O p (sortByPath fs) hnodisk (S2, [])
  have hprfold : pr = (sortByPath fs).foldl
      (processFile hashF mode s.files M O) (S2, []) := rfl
  rw [← hprfold] at haway
  have hcoll : ∀ ch ∈ pr.2, (ch : VaultChunk).file_path ≠ p := by
    intro ch hch hpth
    have h0 : chunksOf pr.2 p = chunksOf ((S2, ([] : List VaultChunk))).2 p :=
      haway.2.2.1
    have : ch ∈ chunksOf pr.2 p := by
      unfold chunksOf
      exact List.mem_filter.mpr ⟨hch, by simp [hpth]⟩
    rw [h0] at this
    simp [chunksOf] at this
  have hembed := embed_final_away embed bts pr.1 sf p pr.2 he
    (batched_mem pr.2 bs bts hb) hcoll
  refine ⟨sf, hr1, ?_, ?_⟩
  · intro hcd
    have hS2v : S2 = cleanupStore s (s.files.map (fun r => r.file_path))
        (fs.map (fun f => f.path)) := by rw [hS2, if_pos hcd]
    have hclean := cleanupStore_missing s (s.files.map (fun r => r.file_path))
      (fs.map (fun f => f.path)) p hrec hgone
    constructor
    · rw [hembed.1, haway.1]
      show filesAt S2 p = []
      rw [hS2v]
      exact hclean.1
    · rw [hembed.2, haway.2.1]
      show chunksAt S2 p = []
      rw [hS2v]
      exact hclean.2
  · intro hcd
    have hS2v : S2 = s := by rw [hS2, if_neg (by rw [hcd]; simp)]
    constructor
    · rw [hembed.1, haway.1]
      show filesAt S2 p = filesAt s p
      rw [hS2v]
    · rw [hembed.2, haway.2.1]
      show chunksAt S2 p = chunksAt s p
      rw [hS2v]

/-- C4, witness: a concrete successful `update-all` run with
`cleanup_deleted` enabled removes the rows of the vanished `gone.md`. -/
theorem index_vault_cleanup_update_modes_witness :
    ("update-all" = "update-all" ∨ "update-all" = "update-new") ∧
    "gone.md" ∈ ([⟨"gone.md", "x", 0⟩] : List FileRow).map (fun r => r.file_path) ∧
    "gone.md" ∉ ([⟨"a.md", "alpha", 0⟩] : List DiskFile).map (fun f => f.path) ∧
    (∃ sf, (some (⟨[⟨"a.md", "alpha", 0⟩], [⟨1, "a.md", "", "alpha", 0⟩], 2⟩ :
          Store Nat) : Option (Store Nat)) = some sf ∧
      (true = true → filesAt sf "gone.md" = [] ∧ chunksAt sf "gone.md" = []) ∧
      (true = false → filesAt sf "gone.md" = filesAt
          (⟨[⟨"gone.md", "x", 0⟩], [⟨0, "gone.md", "", "x", 7⟩], 1⟩ : Store Nat)
          "gone.md" ∧
        chunksAt sf "gone.md" = chunksAt
          (⟨[⟨"gone.md", "x", 0⟩], [⟨0, "gone.md", "", "x", 7⟩], 1⟩ : Store Nat)
          "gone.md")) :=
  ⟨Or.inl rfl, by decide, by decide,
    index_vault_cleanup_update_modes id "v" [⟨"a.md", "alpha", 0⟩]
      ⟨[⟨"gone.md", "x", 0⟩], [⟨0, "gone.md", "", "x", 7⟩], 1⟩
      (fun ts => .ok (ts.map fun _ => 0)) "update-all" 800 100 16 true
      (some ⟨[⟨"a.md", "alpha", 0⟩], [⟨1, "a.md", "", "alpha", 0⟩], 2⟩) 1 "gone.md"
      (Or.inl rfl) (by decide) (by decide) (by decide)⟩

/-! ## Claim theorems: update-all change detection (C5) -/

/-- C5.  In `update-all` mode, on a successful run: a file whose digest
equals its stored `content_hash` is skipped entirely (its `files` row and
its `chunks` rows are untouched and none of its chunks is collected for
embedding); a file with a stored record and a different digest has its old
chunk rows purged (none of them survives in the final store), its record
rewritten with the new digest, and its freshly computed chunks collected
for embedding and insertion; a file with no prior record is inserted as a
new record, with its chunks collected for embedding. -/
theorem index_vault_update_all_change_detection {V : Type} (hashF : String → String)
    (vn : String) (fs : List DiskFile) (s : Store V)
    (embed : List String → Except Unit (List V)) (M O : Nat) (bs : Int) (cd : Bool)
    (p c : String) (t : Int) (r1 : Option (Store V)) (n : Nat)
    (hmem : (⟨p, c, t⟩ : DiskFile) ∈ fs)
    (hnodup : (fs.map (fun f => f.path)).Nodup)
    (hfnodup : (s.files.map (fun r => r.file_path)).Nodup)
    (hids : ∀ ch ∈ s.chunks, (ch : ChunkRow V).chunk_id < s.nextChunkId)
    (hok : index_vault hashF vn (some fs) (some s) embed "update-all" M O bs cd
      = (r1, .ok n)) :
    ∃ sf, r1 = some sf ∧
      ((lookupHash s.files p = some (hashF c) →
          filesAt sf p = filesAt s p ∧ chunksAt sf p = chunksAt s p ∧
          chunksOf (loopState hashF fs s "update-all" M O cd).2 p = []) ∧
       (∀ h0, lookupHash s.files p = some h0 → h0 ≠ hashF c →
          filesAt sf p = [⟨p, hashF c, t⟩] ∧
          chunksOf (loopState hashF fs s "update-all" M O cd).2 p
            = collect_file_chunks c p M O ∧
          ∀ ch ∈ s.chunks, (ch : ChunkRow V).file_path = p → ch ∉ sf.chunks) ∧
       (lookupHash s.files p = none →
          filesAt sf p = [⟨p, hashF c, t⟩] ∧
          chunksOf (loopState hashF fs s "update-all" M O cd).2 p
            = collect_file_chunks c p M O)) := by
  have hnr : ("update-all" : String) ≠ "rebuild" := by decide
  rcases index_vault_ok_elim hashF vn fs (some s) embed "update-all" M O bs cd r1 n hok
    with ⟨sf, hr1, hbody⟩
  have hopen : openedStore "update-all" (some s) = s := by
    unfold openedStore; rw [if_neg hnr]; rfl
  rw [hopen] at hbody
  rcases indexBody_ok_elim hashF fs s embed "update-all" M O bs cd sf n hbody
    with ⟨bts, hb, he, hn⟩
  have hloop := loopState_update hashF fs s "update-all" M O cd hnr
  rw [hloop] at hb he
  set S2 : Store V :=
    if cd = true then
      cleanupStore s (s.files.map (fun r => r.file_path)) (fs.map (fun f => f.path))
    else s with hS2
  set pr := processFiles hashF "update-all" s.files M O S2 fs with hpr
  have hplive : p ∈ fs.map (fun f => f.path) := by
    have := List.mem_map_of_mem (fun f : DiskFile => f.path) hmem
    simpa using this
  have hS2f : filesAt S2 p = filesAt s p := by
    rw [hS2]
    by_cases hcd : cd = true
    · rw [if_pos hcd]
      exact (cleanupStore_live s _ _ p hplive).1
    · rw [if_neg hcd]
  have hS2c : chunksAt S2 p = chunksAt s p := by
    rw [hS2]
    by_cases hcd : cd = true
    · rw [if_pos hcd]
      exact (cleanupStore_live s _ _ p hplive).2.1
    · rw [if_neg hcd]
  have hS2n : S2.nextChunkId = s.nextChunkId := by
    rw [hS2]
    by_cases hcd : cd = true
    · rw [if_pos hcd]; rfl
    · rw [if_neg hcd]
  refine ⟨sf, hr1, ?_, ?_, ?_⟩
  · -- digest unchanged: skipped entirely
    intro hstored
    have hskip : ∀ a : Store V × List VaultChunk,
        processFile hashF "update-all" s.files M O a ⟨p, c, t⟩ = a :=
      fun a => processFile_skip_ua hashF s.files M O a ⟨p, c, t⟩ hstored
    have obs := processFiles_skip_obs hashF "update-all" s.files M O S2 fs
      ⟨p, c, t⟩ hmem hnodup hskip
    dsimp only at obs
    rw [← hpr] at obs
    have hcoll : ∀ ch ∈ pr.2, (ch : VaultChunk).file_path ≠ p := by
      intro ch hch hpth
      have : ch ∈ chunksOf pr.2 p := by
        unfold chunksOf
        exact List.mem_filter.mpr ⟨hch, by simp [hpth]⟩
      rw [obs.2.2.1] at this
      simp at this
    have hembed := embed_final_away embed bts pr.1 sf p pr.2 he
      (batched_mem pr.2 bs bts hb) hcoll
    refine ⟨?_, ?_, ?_⟩
    · rw [hembed.1, obs.1, hS2f]
    · rw [hembed.2, obs.2.1, hS2c]
    · rw [hloop]
      exact obs.2.2.1
  · -- digest changed: old chunk rows purged, record rewritten
    intro h0 hstored hne
    rcases Option.map_eq_some'.mp hstored with ⟨r, hfind, hrh⟩
    have hrp : r.file_path = p := by
      have := List.find?_some hfind
      simpa using this
    have hfilesAtS : filesAt s p = [r] := by
      unfold filesAt
      rw [filter_path_unique p s.files hfnodup, hfind]
      rfl
    have hanyS2 : S2.files.any (fun r => decide (r.file_path = p)) = true := by
      rw [any_iff_filter]
      have : S2.files.filter (fun r => decide (r.file_path = p)) = filesAt S2 p := rfl
      rw [this, hS2f, hfilesAtS]
      simp
    have obs := processFiles_changed_obs hashF s.files M O S2 fs ⟨p, c, t⟩ h0
      hmem hnodup hstored hne hanyS2
    dsimp only at obs
    rw [← hpr] at obs
    rcases embedAll_ok embed bts pr.1 sf he with ⟨hf, ⟨extra, hch, hprop⟩, _⟩
    refine ⟨?_, ?_, ?_⟩
    · have : filesAt sf p = filesAt pr.1 p := by unfold filesAt; rw [hf]
      rw [this, obs.1, hS2f, hfilesAtS]
      rfl
    · rw [hloop]
      exact obs.2.2.1
    · intro ch hchs hchp hmemsf
      rw [hch] at hmemsf
      rcases List.mem_append.mp hmemsf with hin | hin
      · have : ch ∈ chunksAt pr.1 p := by
          unfold chunksAt
          exact List.mem_filter.mpr ⟨hin, by simp [hchp]⟩
        rw [obs.2.1] at this
        simp at this
      · rcases hprop ch hin with ⟨_, hid⟩
        rw [obs.2.2.2, hS2n] at hid
        exact absurd (hids ch hchs) (by omega)
  · -- no prior record: inserted as new
    intro hstored
    have hfind : s.files.find? (fun r => decide (r.file_path = p)) = none :=
      Option.map_eq_none'.mp hstored
    have hfilesAtS : filesAt s p = [] := by
      unfold filesAt
      rw [List.filter_eq_nil_iff]
      intro a ha hpa
      exact (List.find?_eq_none.mp hfind a ha) hpa
    have hanyS2 : S2.files.any (fun r => decide (r.file_path = p)) = false := by
      cases hres : S2.files.any (fun r => decide (r.file_path = p)) with
      | false => rfl
      | true =>
        exfalso
        have h1 := (any_iff_filter _ _).mp hres
        have h2 : S2.files.filter (fun r => decide (r.file_path = p)) = filesAt S2 p :=
          rfl
        rw [h2, hS2f, hfilesAtS] at h1
        exact h1 rfl
    have obs := processFiles_new_obs hashF "update-all" s.files M O S2 fs
      ⟨p, c, t⟩ hmem hnodup hstored hanyS2
    dsimp only at obs
    rw [← hpr] at obs
    rcases embedAll_ok embed bts pr.1 sf he with ⟨hf, _, _⟩
    constructor
    · have : filesAt sf p = filesAt pr.1 p := by unfold filesAt; rw [hf]
      rw [this, obs.1, hS2f, hfilesAtS, List.nil_append]
    · rw [hloop]
      exact obs.2.2.1

/-- C5, witness: a concrete successful `update-all` run over `a.md`
(unchanged), `b.md` (changed) and `c.md` (new), instantiated at the
unchanged file `a.md`. -/
theorem index_vault_update_all_change_detection_witness :
    (⟨"a.md", "alpha", 0⟩ : DiskFile) ∈
      ([⟨"a.md", "alpha", 0⟩, ⟨"b.md", "beta beta", 1⟩, ⟨"c.md", "gamma", 2⟩] :
        List DiskFile) ∧
    (([⟨"a.md", "alpha", 0⟩, ⟨"b.md", "beta beta", 1⟩, ⟨"c.md", "gamma", 2⟩] :
        List DiskFile).map (fun f => f.path)).Nodup ∧
    (∃ sf, (some (⟨[⟨"a.md", "alpha", 0⟩, ⟨"b.md", "beta beta", 1⟩,
          ⟨"c.md", "gamma", 2⟩],
        [⟨1, "b.md", "", "beta beta", 0⟩, ⟨2, "c.md", "", "gamma", 0⟩], 3⟩ :
          Store Nat) : Option (Store Nat)) = some sf ∧
      ((lookupHash [⟨"a.md", "alpha", 0⟩, ⟨"b.md", "old", 0⟩] "a.md"
          = some (id "alpha") →
          filesAt sf "a.md" = filesAt
            (⟨[⟨"a.md", "alpha", 0⟩, ⟨"b.md", "old", 0⟩],
              [⟨0, "b.md", "", "stale", 5⟩], 1⟩ : Store Nat) "a.md" ∧
          chunksAt sf "a.md" = chunksAt
            (⟨[⟨"a.md", "alpha", 0⟩, ⟨"b.md", "old", 0⟩],
              [⟨0, "b.md", "", "stale", 5⟩], 1⟩ : Store Nat) "a.md" ∧
          chunksOf (loopState id [⟨"a.md", "alpha", 0⟩, ⟨"b.md", "beta beta", 1⟩,
              ⟨"c.md", "gamma", 2⟩]
            (⟨[⟨"a.md", "alpha", 0⟩, ⟨"b.md", "old", 0⟩],
              [⟨0, "b.md", "", "stale", 5⟩], 1⟩ : Store Nat)
            "update-all" 800 100 false).2 "a.md" = []) ∧
       (∀ h0, lookupHash [⟨"a.md", "alpha", 0⟩, ⟨"b.md", "old", 0⟩] "a.md" = some h0 →
          h0 ≠ id "alpha" →
          filesAt sf "a.md" = [⟨"a.md", id "alpha", 0⟩] ∧
          chunksOf (loopState id [⟨"a.md", "alpha", 0⟩, ⟨"b.md", "beta beta", 1⟩,
              ⟨"c.md", "gamma", 2⟩]
            (⟨[⟨"a.md", "alpha", 0⟩, ⟨"b.md", "old", 0⟩],
              [⟨0, "b.md", "", "stale", 5⟩], 1⟩ : Store Nat)
            "update-all" 800 100 false).2 "a.md"
            = collect_file_chunks "alpha" "a.md" 800 100 ∧
          ∀ ch ∈ (⟨[⟨"a.md", "alpha", 0⟩, ⟨"b.md", "old", 0⟩],
              [⟨0, "b.md", "", "stale", 5⟩], 1⟩ : Store Nat).chunks,
            (ch : ChunkRow Nat).file_path = "a.md" → ch ∉ sf.chunks) ∧
       (lookupHash [⟨"a.md", "alpha", 0⟩, ⟨"b.md", "old", 0⟩] "a.md" = none →
          filesAt sf "a.md" = [⟨"a.md", id "alpha", 0⟩] ∧
          chunksOf (loopState id [⟨"a.md", "alpha", 0⟩, ⟨"b.md", "beta beta", 1⟩,
              ⟨"c.md", "gamma", 2⟩]
            (⟨[⟨"a.md", "alpha", 0⟩, ⟨"b.md", "old", 0⟩],
              [⟨0, "b.md", "", "stale", 5⟩], 1⟩ : Store Nat)
            "update-all" 800 100 false).2 "a.md"
            = collect_file_chunks "alpha" "a.md" 800 100))) :=
  ⟨by decide, by decide,
    index_vault_update_all_change_detection id "v"
      [⟨"a.md", "alpha", 0⟩, ⟨"b.md", "beta beta", 1⟩, ⟨"c.md", "gamma", 2⟩]
      ⟨[⟨"a.md", "alpha", 0⟩, ⟨"b.md", "old", 0⟩], [⟨0, "b.md", "", "stale", 5⟩], 1⟩
      (fun ts => .ok (ts.map fun _ => 0)) 800 100 16 false "a.md" "alpha" 0
      (some ⟨[⟨"a.md", "alpha", 0⟩, ⟨"b.md", "beta beta", 1⟩, ⟨"c.md", "gamma", 2⟩],
        [⟨1, "b.md", "", "beta beta", 0⟩, ⟨2, "c.md", "", "gamma", 0⟩], 3⟩) 2
      (by decide) (by decide) (by decide) (by decide) (by decide)⟩

/-! ## Claim theorems: update-new (C6) -/

/-- C6.  In `update-new` mode, on a successful run, a file that already has
a `files` record is skipped no matter what its content digest is: its
`files` row and `chunks` rows are untouched and none of its chunks is
collected for embedding; a file with no record is processed (its record is
inserted and its chunks are collected). -/
theorem index_vault_update_new_skips_existing {V : Type} (hashF : String → String)
    (vn : String) (fs : List DiskFile) (s : Store V)
    (embed : List String → Except Unit (List V)) (M O : Nat) (bs : Int) (cd : Bool)
    (p c : String) (t : Int) (r1 : Option (Store V)) (n : Nat)
    (hmem : (⟨p, c, t⟩ : DiskFile) ∈ fs)
    (hnodup : (fs.map (fun f => f.path)).Nodup)
    (hok : index_vault hashF vn (some fs) (some s) embed "update-new" M O bs cd
      = (r1, .ok n)) :
    ∃ sf, r1 = some sf ∧
      ((∀ h0, lookupHash s.files p = some h0 →
          filesAt sf p = filesAt s p ∧ chunksAt sf p = chunksAt s p ∧
          chunksOf (loopState hashF fs s "update-new" M O cd).2 p = []) ∧
       (lookupHash s.files p = none →
          filesAt sf p = filesAt s p ++ [⟨p, hashF c, t⟩] ∧
          chunksOf (loopState hashF fs s "update-new" M O cd).2 p
            = collect_file_chunks c p M O)) := by
  have hnr : ("update-new" : String) ≠ "rebuild" := by decide
  rcases index_vault_ok_elim hashF vn fs (some s) embed "update-new" M O bs cd r1 n hok
    with ⟨sf, hr1, hbody⟩
  have hopen : openedStore "update-new" (some s) = s := by
    unfold openedStore; rw [if_neg hnr]; rfl
  rw [hopen] at hbody
  rcases indexBody_ok_elim hashF fs s embed "update-new" M O bs cd sf n hbody
    with ⟨bts, hb, he, hn⟩
  have hloop := loopState_update hashF fs s "update-new" M O cd hnr
  rw [hloop] at hb he
  set S2 : Store V :=
    if cd = true then
      cleanupStore s (s.files.map (fun r => r.file_path)) (fs.map (fun f => f.path))
    else s with hS2
  set pr := processFiles hashF "update-new" s.files M O S2 fs with hpr
  have hplive : p ∈ fs.map (fun f => f.path) := by
    have := List.mem_map_of_mem (fun f : DiskFile => f.path) hmem
    simpa using this
  have hS2f : filesAt S2 p = filesAt s p := by
    rw [hS2]
    by_cases hcd : cd = true
    · rw [if_pos hcd]
      exact (cleanupStore_live s _ _ p hplive).1
    · rw [if_neg hcd]
  have hS2c : chunksAt S2 p = chunksAt s p := by
    rw [hS2]
    by_cases hcd : cd = true
    · rw [if_pos hcd]
      exact (cleanupStore_live s _ _ p hplive).2.1
    · rw [if_neg hcd]
  refine ⟨sf, hr1, ?_, ?_⟩
  · -- existing record: skipped regardless of content
    intro h0 hstored
    have hskip : ∀ a : Store V × List VaultChunk,
        processFile hashF "update-new" s.files M O a ⟨p, c, t⟩ = a :=
      fun a => processFile_skip_un hashF s.files M O a ⟨p, c, t⟩
        (by show (lookupHash s.files p).isSome = true; rw [hstored]; rfl)
    have obs := processFiles_skip_obs hashF "update-new" s.files M O S2 fs
      ⟨p, c, t⟩ hmem hnodup hskip
    dsimp only at obs
    rw [← hpr] at obs
    have hcoll : ∀ ch ∈ pr.2, (ch : VaultChunk).file_path ≠ p := by
      intro ch hch hpth
      have : ch ∈ chunksOf pr.2 p := by
        unfold chunksOf
        exact List.mem_filter.mpr ⟨hch, by simp [hpth]⟩
      rw [obs.2.2.1] at this
      simp at this
    have hembed := embed_final_away embed bts pr.1 sf p pr.2 he
      (batched_mem pr.2 bs bts hb) hcoll
    refine ⟨?_, ?_, ?_⟩
    · rw [hembed.1, obs.1, hS2f]
    · rw [hembed.2, obs.2.1, hS2c]
    · rw [hloop]
      exact obs.2.2.1
  · -- no record: processed as new
    intro hstored
    have hfind : s.files.find? (fun r => decide (r.file_path = p)) = none :=
      Option.map_eq_none'.mp hstored
    have hfilesAtS : filesAt s p = [] := by
      unfold filesAt
      rw [List.filter_eq_nil_iff]
      intro a ha hpa
      exact (List.find?_eq_none.mp hfind a ha) hpa
    have hanyS2 : S2.files.any (fun r => decide (r.file_path = p)) = false := by
      cases hres : S2.files.any (fun r => decide (r.file_path = p)) with
      | false => rfl
      | true =>
        exfalso
        have h1 := (any_iff_filter _ _).mp hres
        have h2 : S2.files.filter (fun r => decide (r.file_path = p)) = filesAt S2 p :=
          rfl
        rw [h2, hS2f, hfilesAtS] at h1
        exact h1 rfl
    have obs := processFiles_new_obs hashF "update-new" s.files M O S2 fs
      ⟨p, c, t⟩ hmem hnodup hstored hanyS2
    dsimp only at obs
    rw [← hpr] at obs
    rcases embedAll_ok embed bts pr.1 sf he with ⟨hf, _, _⟩
    constructor
    · have : filesAt sf p = filesAt pr.1 p := by unfold filesAt; rw [hf]
      rw [this, obs.1, hS2f]
    · rw [hloop]
      exact obs.2.2.1

/-- C6, witness: a concrete successful `update-new` run where `a.md` has a
record with a stale digest (content changed) yet is skipped, instantiated
at `a.md`. -/
theorem index_vault_update_new_skips_existing_witness :
    (⟨"a.md", "alpha new", 0⟩ : DiskFile) ∈
      ([⟨"a.md", "alpha new", 0⟩, ⟨"c.md", "gamma", 2⟩] : List DiskFile) ∧
    (([⟨"a.md", "alpha new", 0⟩, ⟨"c.md", "gamma", 2⟩] : List DiskFile).map
      (fun f => f.path)).Nodup ∧
    (∃ sf, (some (⟨[⟨"a.md", "old", 0⟩, ⟨"c.md", "gamma", 2⟩],
        [⟨0, "a.md", "", "stale", 5⟩, ⟨1, "c.md", "", "gamma", 0⟩], 2⟩ :
          Store Nat) : Option (Store Nat)) = some sf ∧
      ((∀ h0, lookupHash [⟨"a.md", "old", 0⟩] "a.md" = some h0 →
          filesAt sf "a.md" = filesAt
            (⟨[⟨"a.md", "old", 0⟩], [⟨0, "a.md", "", "stale", 5⟩], 1⟩ : Store Nat)
            "a.md" ∧
          chunksAt sf "a.md" = chunksAt
            (⟨[⟨"a.md", "old", 0⟩], [⟨0, "a.md", "", "stale", 5⟩], 1⟩ : Store Nat)
            "a.md" ∧
          chunksOf (loopState id [⟨"a.md", "alpha new", 0⟩, ⟨"c.md", "gamma", 2⟩]
            (⟨[⟨"a.md", "old", 0⟩], [⟨0, "a.md", "", "stale", 5⟩], 1⟩ : Store Nat)
            "update-new" 800 100 false).2 "a.md" = []) ∧
       (lookupHash [⟨"a.md", "old", 0⟩] "a.md" = none →
          filesAt sf "a.md" = filesAt
            (⟨[⟨"a.md", "old", 0⟩], [⟨0, "a.md", "", "stale", 5⟩], 1⟩ : Store Nat)
            "a.md" ++ [⟨"a.md", id "alpha new", 0⟩] ∧
          chunksOf (loopState id [⟨"a.md", "alpha new", 0⟩, ⟨"c.md", "gamma", 2⟩]
            (⟨[⟨"a.md", "old", 0⟩], [⟨0, "a.md", "", "stale", 5⟩], 1⟩ : Store Nat)
            "update-new" 800 100 false).2 "a.md"
            = collect_file_chunks "alpha new" "a.md" 800 100))) :=
  ⟨by decide, by decide,
    index_vault_update_new_skips_existing id "v"
      [⟨"a.md", "alpha new", 0⟩, ⟨"c.md", "gamma", 2⟩]
      ⟨[⟨"a.md", "old", 0⟩], [⟨0, "a.md", "", "stale", 5⟩], 1⟩
      (fun ts => .ok (ts.map fun _ => 0)) 800 100 16 false "a.md" "alpha new" 0
      (some ⟨[⟨"a.md", "old", 0⟩, ⟨"c.md", "gamma", 2⟩],
        [⟨0, "a.md", "", "stale", 5⟩, ⟨1, "c.md", "", "gamma", 0⟩], 2⟩) 1
      (by decide) (by decide) (by decide)⟩

/-! ## Lemmas about the retriever's stable sort -/

theorem cos_ok (a b : List ℝ) : cosine_similarity a b = .ok (cosValue a b) := by
  unfold cosine_similarity cosValue pyDiv
  by_cases hab : a = [] ∨ b = []
  · rw [if_pos hab, if_pos hab]
  · rw [if_neg hab, if_neg hab]
    by_cases hz :
        Real.sqrt ((a.map fun x => x * x).sum) * Real.sqrt ((b.map fun y => y * y).sum) = 0
    · rw [if_pos hz, if_pos hz]
    · rw [if_neg hz, if_neg hz, if_neg hz]

theorem scoreRows_ok (vn : String) (qv : List ℝ) :
    ∀ rows, scoreRows vn qv rows = .ok (scoredResults vn qv rows) := by
  intro rows
  induction rows with
  | nil => rfl
  | cons r rs ih =>
    unfold scoreRows
    rw [cos_ok, ih]
    rfl

theorem insertDesc_perm (x : VaultSearchResult) :
    ∀ l, List.Perm (insertDesc x l) (x :: l) := by
  intro l
  induction l with
  | nil => exact List.Perm.refl _
  | cons y ys ih =>
    unfold insertDesc
    split
    · exact (ih.cons y).trans (List.Perm.swap x y ys)
    · exact List.Perm.refl _

theorem sortDesc_perm : ∀ l, List.Perm (sortDesc l) l := by
  intro l
  induction l with
  | nil => exact List.Perm.refl _
  | cons x xs ih => exact (insertDesc_perm x (sortDesc xs)).trans (ih.cons x)

theorem pairwise_insertDesc (x : VaultSearchResult) :
    ∀ l, List.Pairwise (fun a b : VaultSearchResult => b.score ≤ a.score) l →
      List.Pairwise (fun a b : VaultSearchResult => b.score ≤ a.score)
        (insertDesc x l) := by
  intro l
  induction l with
  | nil => intro _; exact List.pairwise_singleton _ _
  | cons y ys ih =>
    intro hp
    rcases List.pairwise_cons.mp hp with ⟨hy, hys⟩
    unfold insertDesc
    by_cases h : x.score < y.score
    · rw [if_pos h]
      refine List.pairwise_cons.mpr ⟨?_, ih hys⟩
      intro z hz
      rcases List.mem_cons.mp ((insertDesc_perm x ys).mem_iff.mp hz) with rfl | hz
      · exact le_of_lt h
      · exact hy z hz
    · rw [if_neg h]
      refine List.pairwise_cons.mpr ⟨?_, hp⟩
      intro z hz
      rcases List.mem_cons.mp hz with rfl | hz
      · exact le_of_not_lt h
      · exact le_trans (hy z hz) (le_of_not_lt h)

theorem sortDesc_sorted :
    ∀ l, List.Pairwise (fun a b : VaultSearchResult => b.score ≤ a.score)
      (sortDesc l) := by
  intro l
  induction l with
  | nil => exact List.Pairwise.nil
  | cons x xs ih => exact pairwise_insertDesc x (sortDesc xs) ih

theorem insertDescT_perm (x : Nat × VaultSearchResult) :
    ∀ l, List.Perm (insertDescT x l) (x :: l) := by
  intro l
  induction l with
  | nil => exact List.Perm.refl _
  | cons y ys ih =>
    unfold insertDescT
    split
    · exact (ih.cons y).trans (List.Perm.swap x y ys)
    · exact List.Perm.refl _

theorem sortDescT_perm : ∀ l, List.Perm (sortDescT l) l := by
  intro l
  induction l with
  | nil => exact List.Perm.refl _
  | cons x xs ih => exact (insertDescT_perm x (sortDescT xs)).trans (ih.cons x)

theorem insertDescT_map_snd (x : Nat × VaultSearchResult) :
    ∀ l, (insertDescT x l).map Prod.snd = insertDesc x.2 (l.map Prod.snd) := by
  intro l
  induction l with
  | nil => rfl
  | cons y ys ih =>
    simp only [List.map_cons]
    unfold insertDescT insertDesc
    by_cases h : x.2.score < y.2.score
    · rw [if_pos h, if_pos h, List.map_cons, ih]
    · rw [if_neg h, if_neg h]
      simp

theorem sortDescT_map_snd :
    ∀ l, (sortDescT l).map Prod.snd = sortDesc (l.map Prod.snd) := by
  intro l
  induction l with
  | nil => rfl
  | cons x xs ih =>
    show (insertDescT x (sortDescT xs)).map Prod.snd = _
    rw [insertDescT_map_snd, ih]
    rfl

theorem pairwise_stable_insertT (x : Nat × VaultSearchResult) :
    ∀ l, List.Pairwise (fun a b : Nat × VaultSearchResult =>
        a.2.score = b.2.score → a.1 < b.1) l →
      (∀ b ∈ l, x.1 < (b : Nat × VaultSearchResult).1) →
      List.Pairwise (fun a b : Nat × VaultSearchResult =>
        a.2.score = b.2.score → a.1 < b.1) (insertDescT x l) := by
  intro l
  induction l with
  | nil => intro _ _; exact List.pairwise_singleton _ _
  | cons y ys ih =>
    intro hp hidx
    rcases List.pairwise_cons.mp hp with ⟨hy, hys⟩
    unfold insertDescT
    by_cases h : x.2.score < y.2.score
    · rw [if_pos h]
      refine List.pairwise_cons.mpr ⟨?_, ?_⟩
      · intro z hz
        rcases List.mem_cons.mp ((insertDescT_perm x ys).mem_iff.mp hz) with rfl | hz
        · intro heq
          rw [heq] at h
          exact absurd h (lt_irrefl _)
        · exact hy z hz
      · exact ih hys (fun b hb => hidx b (List.mem_cons_of_mem y hb))
    · rw [if_neg h]
      refine List.pairwise_cons.mpr ⟨?_, hp⟩
      intro z hz _
      exact hidx z hz

theorem sortDescT_stable :
    ∀ l, List.Pairwise (fun a b : Nat × VaultSearchResult => a.1 < b.1) l →
      List.Pairwise (fun a b : Nat × VaultSearchResult =>
        a.2.score = b.2.score → a.1 < b.1) (sortDescT l) := by
  intro l
  induction l with
  | nil => intro _; exact List.Pairwise.nil
  | cons x xs ih =>
    intro hp
    rcases List.pairwise_cons.mp hp with ⟨hx, hxs⟩
    show List.Pairwise _ (insertDescT x (sortDescT xs))
    refine pairwise_stable_insertT x (sortDescT xs) (ih hxs) ?_
    intro b hb
    exact hx b ((sortDescT_perm xs).subset hb)

theorem mem_withIdx_fst_ge {α : Type} :
    ∀ (l : List α) (j : Nat) (b : Nat × α), b ∈ withIdx j l → j ≤ b.1 := by
  intro l
  induction l with
  | nil => intro j b hb; simp [withIdx] at hb
  | cons x xs ih =>
    intro j b hb
    rcases List.mem_cons.mp hb with rfl | hb
    · exact le_refl _
    · exact le_trans (Nat.le_succ _) (ih (j + 1) b hb)

theorem withIdx_pairwise {α : Type} :
    ∀ (l : List α) (j : Nat),
      List.Pairwise (fun a b : Nat × α => a.1 < b.1) (withIdx j l) := by
  intro l
  induction l with
  | nil => intro j; exact List.Pairwise.nil
  | cons x xs ih =>
    intro j
    refine List.pairwise_cons.mpr ⟨?_, ih (j + 1)⟩
    intro b hb
    exact lt_of_lt_of_le (Nat.lt_succ_self j) (mem_withIdx_fst_ge xs (j + 1) b hb)

theorem withIdx_map_snd {α : Type} :
    ∀ (l : List α) (j : Nat), (withIdx j l).map Prod.snd = l := by
  intro l
  induction l with
  | nil => intro _; rfl
  | cons x xs ih =>
    intro j
    show x :: (withIdx (j + 1) xs).map Prod.snd = x :: xs
    rw [ih]

/-! ## Claim theorem: retriever ranking (C8) -/

/-- C8.  When the query validates and the provider returns a query vector,
the retriever returns exactly `take top_k` of the stable descending sort of
the scored results: the output length is `min top_k N`; the sorted list is
descending in score and a permutation of the scored scan; and on the
position-tagged copy (whose projection is the very sort used), any two
equal-score results keep their scan order, so ties preserve the store's
insertion order. -/
theorem query_vault_index_ranking (vn : String) (rows : List (ChunkRow (List ℝ)))
    (q : String) (embed : List String → Except Unit (List (List ℝ)))
    (top_k : Nat) (qv : List ℝ) (rest : List (List ℝ))
    (hq : pyStrip q ≠ "") (hemb : embed [q] = .ok (qv :: rest)) :
    query_vault_index vn (some rows) q embed top_k
      = .ok ((sortDesc (scoredResults vn qv rows)).take top_k) ∧
    ((sortDesc (scoredResults vn qv rows)).take top_k).length = min top_k rows.length ∧
    List.Pairwise (fun a b : VaultSearchResult => b.score ≤ a.score)
      (sortDesc (scoredResults vn qv rows)) ∧
    List.Perm (sortDesc (scoredResults vn qv rows)) (scoredResults vn qv rows) ∧
    (sortDescT (withIdx 0 (scoredResults vn qv rows))).map Prod.snd
      = sortDesc (scoredResults vn qv rows) ∧
    List.Pairwise (fun a b : Nat × VaultSearchResult =>
      a.2.score = b.2.score → a.1 < b.1)
      (sortDescT (withIdx 0 (scoredResults vn qv rows))) := by
  refine ⟨?_, ?_, sortDesc_sorted _, sortDesc_perm _, ?_, ?_⟩
  · unfold query_vault_index
    rw [if_neg hq]
    dsimp only
    rw [hemb]
    dsimp only
    rw [scoreRows_ok]
  · rw [List.length_take, (sortDesc_perm _).length_eq]
    unfold scoredResults
    rw [List.length_map]
  · rw [sortDescT_map_snd, withIdx_map_snd]
  · exact sortDescT_stable _ (withIdx_pairwise _ 0)

/-- C8, witness at a concrete query over an empty store. -/
theorem query_vault_index_ranking_witness :
    pyStrip "q" ≠ "" ∧
    (fun ts : List String =>
        (Except.ok (ts.map fun _ => ([1] : List ℝ)) : Except Unit (List (List ℝ)))) ["q"]
      = .ok ([1] :: []) ∧
    (query_vault_index "v" (some []) "q"
        (fun ts =>
          (Except.ok (ts.map fun _ => ([1] : List ℝ)) : Except Unit (List (List ℝ)))) 1
      = .ok ((sortDesc (scoredResults "v" [1] [])).take 1) ∧
    ((sortDesc (scoredResults "v" [1] [])).take 1).length = min 1 ([] : List (ChunkRow (List ℝ))).length ∧
    List.Pairwise (fun a b : VaultSearchResult => b.score ≤ a.score)
      (sortDesc (scoredResults "v" [1] [])) ∧
    List.Perm (sortDesc (scoredResults "v" [1] [])) (scoredResults "v" [1] []) ∧
    (sortDescT (withIdx 0 (scoredResults "v" [1] []))).map Prod.snd
      = sortDesc (scoredResults "v" [1] []) ∧
    List.Pairwise (fun a b : Nat × VaultSearchResult =>
      a.2.score = b.2.score → a.1 < b.1)
      (sortDescT (withIdx 0 (scoredResults "v" [1] [])))) :=
  ⟨by decide, rfl,
    query_vault_index_ranking "v" [] "q"
      (fun ts =>
        (Except.ok (ts.map fun _ => ([1] : List ℝ)) : Except Unit (List (List ℝ)))) 1 [1] []
      (by decide) rfl⟩

/-! ## Claim theorems: chunker, section splitter, cosine similarity -/

/-- C2, counterexample.  A 20-word section chunked with window 10 and
overlap 5 yields 4 windows, while the claimed formula
`ceil((W−M)/(M−O)) + 1` gives 3. -/
theorem chunk_text_count_counterexample :
    (pySplitWs "a b c d e f g h i j k l m n o p q r s t").length = 20 ∧
    (chunk_text "a b c d e f g h i j k l m n o p q r s t" 10 5).length = 4 ∧
    ((20 - 10) + ((10 - 5) - 1)) / (10 - 5) + 1 = 3 := by
  refine ⟨by decide, by decide, by decide⟩

/-- C2, amended.  For overlap `O < M`, a section of `W` whitespace words
yields `ceil(W / (M − O))` windows when `W > 0` (the loop advances by
`M − O` while the window start is `< W`), and `0` windows when `W = 0`. -/
theorem chunk_text_window_count (text : String) (max_words overlap_words : Nat)
    (hO : overlap_words < max_words) :
    (chunk_text text max_words overlap_words).length =
      if (pySplitWs text).length = 0 then 0
      else ((pySplitWs text).length + (max_words - overlap_words) - 1) /
        (max_words - overlap_words) := by
  unfold chunk_text
  by_cases hw : pySplitWs text = []
  · simp [hw]
  · have hlen : (pySplitWs text).length ≠ 0 := fun h => hw (List.length_eq_zero.mp h)
    have hstep : max (max_words - overlap_words) 1 = max_words - overlap_words :=
      Nat.max_eq_left (by omega)
    simp only [if_neg hw, if_neg hlen, List.length_map, hstep]
    exact pyRange_length _ _ (by omega)

/-- C2, witness for the amended theorem at a concrete input:
3 words, window 2, overlap 1 give `ceil(3/1) = 3` windows. -/
theorem chunk_text_window_count_witness :
    1 < 2 ∧
    (chunk_text "a b c" 2 1).length =
      (if (pySplitWs "a b c").length = 0 then 0
       else ((pySplitWs "a b c").length + (2 - 1) - 1) / (2 - 1)) :=
  ⟨by decide, chunk_text_window_count "a b c" 2 1 (by decide)⟩

/-- C3, counterexample.  The line `" #H"` passes the heading-marker test
`line.lstrip().startswith("#")` yet its computed heading level
`len(line) - len(line.lstrip("#"))` is `0`, so the level-≤-0 branch is
reachable; on the document `"a\n #H\nb"` the branch fires and the marker
line is dropped from every section. -/
theorem headingLevel_branch_counterexample :
    isHeadingMarker " #H" = true ∧ headingLevel " #H" = 0 ∧
    split_sections "a\n #H\nb" = [("", "a"), ("", "b")] := by
  refine ⟨by decide, by decide, by decide⟩

/-- C3, amended.  The level-≤-0 branch is unreachable for lines that begin
directly with the marker character: if the first character of the line is
`#`, the computed level is at least 1.  (The branch is reachable exactly
through marker lines carrying leading whitespace, as the counterexample
shows.) -/
theorem headingLevel_pos_of_hash_head (line : String)
    (h : line.data.head? = some '#') : 1 ≤ headingLevel line := by
  unfold headingLevel
  cases hd : line.data with
  | nil => rw [hd] at h; simp at h
  | cons c cs =>
    rw [hd] at h
    simp only [List.head?_cons, Option.some.injEq] at h
    subst h
    rw [List.dropWhile_cons_of_pos (by simp)]
    have := length_dropWhile_le (fun c : Char => decide (c = '#')) cs
    simp only [List.length_cons]
    omega

/-- C3, witness for the amended theorem at the line `"## T"`. -/
theorem headingLevel_pos_of_hash_head_witness :
    "## T".data.head? = some '#' ∧ 1 ≤ headingLevel "## T" :=
  ⟨by decide, headingLevel_pos_of_hash_head "## T" (by decide)⟩

/-- C9.  `_cosine_similarity` never raises and returns exactly the spec's
value: the dot product divided by the product of the two Euclidean norms,
and `0.0` whenever either norm is zero (in particular for empty vectors). -/
theorem cosine_similarity_eq_spec (a b : List ℝ) :
    cosine_similarity a b = .ok (specCosineSimilarity a b) := by
  unfold cosine_similarity specCosineSimilarity euclidNorm pyDiv
  by_cases hab : a = [] ∨ b = []
  · rw [if_pos hab]
    rcases hab with ha | hb
    · subst ha
      simp
    · subst hb
      simp
  · rw [if_neg hab]
    by_cases hz :
        Real.sqrt ((a.map fun x => x * x).sum) * Real.sqrt ((b.map fun y => y * y).sum) = 0
    · rw [if_pos hz, if_pos (mul_eq_zero.mp hz)]
    · rw [if_neg hz, if_neg (fun h => hz (mul_eq_zero.mpr h)), if_neg hz]

/-- C10.  For non-empty vectors of different lengths, `_cosine_similarity`
still returns a value (it never raises): the dot product ranges over the
common length only, while each norm ranges over its full vector. -/
theorem cosine_similarity_mismatched (a b : List ℝ) (ha : a ≠ []) (hb : b ≠ [])
    (hlen : a.length ≠ b.length) :
    cosine_similarity a b = .ok (specCosineTruncated a b) := by
  unfold cosine_similarity specCosineTruncated euclidNorm pyDiv
  rw [if_neg (by simp [ha, hb])]
  simp only [zipWith_take_min]
  by_cases hz :
      Real.sqrt ((a.map fun x => x * x).sum) * Real.sqrt ((b.map fun y => y * y).sum) = 0
  · rw [if_pos hz, if_pos hz]
  · rw [if_neg hz, if_neg hz, if_neg hz]

/-- C10, witness at `a = [1, 2]`, `b = [1]`. -/
theorem cosine_similarity_mismatched_witness :
    ([1, 2] : List ℝ) ≠ [] ∧ ([1] : List ℝ) ≠ [] ∧
    ([1, 2] : List ℝ).length ≠ ([1] : List ℝ).length ∧
    cosine_similarity [1, 2] [1] = .ok (specCosineTruncated [1, 2] [1]) :=
  ⟨by simp, by simp, by simp,
    cosine_similarity_mismatched [1, 2] [1] (by simp) (by simp) (by simp)⟩

end Vault
